import Mathlib

/-!
Verification of the `crnt` concurrency toolkit (binary heap, priority
semaphore, bounded/rendezvous queue, batched stream pipeline).

The TypeScript sources are shallowly embedded: class state becomes a
structure, each method becomes a pure function from state to
(result, events, new state), and each `while` loop becomes a
fuel-indexed structural recursion where the fuel passed at every call
site is a proved upper bound on the number of loop iterations (so the
embedded function agrees with the source loop).

Arrays are embedded as `List` with `getD`/`set`; JS numbers used as
counters are embedded as `Int` (or `Nat` where the source value is a
length/index that the source never makes negative).
-/

set_option maxHeartbeats 1600000

deriving instance DecidableEq for Except

namespace Crnt

/-! ### Binary heap (src/unnamed/part_006, class `BinaryHeap`)

`#data` is a JS array; the comparator returns a number, negative
meaning the first argument sorts first.  `#heapifyUp` / `#heapifyDown`
are while loops; their fuel arguments bound the iteration count
(`heapifyUp` strictly decreases the index, `heapifyDown` strictly
increases it below `length`). -/

/-- Parent index in the implicit binary tree: `Math.floor((i - 1) / 2)`. -/
def parentIdx (i : Nat) : Nat := (i - 1) / 2

/-- `#swap(i, j)`: exchange two array slots. -/
def swapL [Inhabited α] (l : List α) (i j : Nat) : List α :=
  (l.set i (l.getD j default)).set j (l.getD i default)

/-- `#heapifyUp(index)`: sift the element at `i` up while it sorts
strictly before its parent. -/
def heapifyUp [Inhabited α] (cmp : α → α → Int) : Nat → List α → Nat → List α
  | 0, l, _ => l
  | fuel + 1, l, i =>
    if i = 0 then l
    else if cmp (l.getD i default) (l.getD (parentIdx i) default) ≥ 0 then l
    else heapifyUp cmp fuel (swapL l i (parentIdx i)) (parentIdx i)

/-- The `minIndex` after the left-child comparison of one
`#heapifyDown` iteration. -/
def downTarget1 [Inhabited α] (cmp : α → α → Int) (l : List α) (i : Nat) : Nat :=
  if 2 * i + 1 < l.length ∧ cmp (l.getD (2 * i + 1) default) (l.getD i default) < 0
  then 2 * i + 1 else i

/-- The `minIndex` computed by one `#heapifyDown` iteration: the smaller
child of `i` if it sorts strictly before the element at `i`, else `i`. -/
def downTarget [Inhabited α] (cmp : α → α → Int) (l : List α) (i : Nat) : Nat :=
  if 2 * i + 2 < l.length ∧
      cmp (l.getD (2 * i + 2) default) (l.getD (downTarget1 cmp l i) default) < 0
  then 2 * i + 2 else downTarget1 cmp l i

/-- `#heapifyDown(index)`: sift the element at `i` down towards the
smaller child while a child sorts strictly before it. -/
def heapifyDown [Inhabited α] (cmp : α → α → Int) : Nat → List α → Nat → List α
  | 0, l, _ => l
  | fuel + 1, l, i =>
    if downTarget cmp l i = i then l
    else heapifyDown cmp fuel (swapL l i (downTarget cmp l i)) (downTarget cmp l i)

/-- `insert(value)`: push then sift up from the last index. -/
def heapInsert [Inhabited α] (cmp : α → α → Int) (l : List α) (v : α) : List α :=
  heapifyUp cmp (l.length + 1) (l ++ [v]) l.length

/-- `pop()`: return the root; move the last element to the root and
sift it down.  (`#data[0] = #data.pop()!` on length ≥ 2.) -/
def heapPop [Inhabited α] (cmp : α → α → Int) (l : List α) : Option α × List α :=
  match l with
  | [] => (none, [])
  | [x] => (some x, [])
  | x :: _ :: _ =>
    let lst := l.getD (l.length - 1) default
    let l' := (l.set 0 lst).dropLast
    (some x, heapifyDown cmp l'.length l' 0)

/-- Heap order as maintained by the source: every non-root element
compares `≥ 0` against its parent (the `#heapifyUp` stop condition). -/
def IsHeap [Inhabited α] (cmp : α → α → Int) (l : List α) : Prop :=
  ∀ j, 0 < j → j < l.length → cmp (l.getD j default) (l.getD (parentIdx j) default) ≥ 0

theorem length_swapL [Inhabited α] (l : List α) (i j : Nat) :
    (swapL l i j).length = l.length := by
  simp [swapL]

theorem getD_swapL_left [Inhabited α] (l : List α) {i j : Nat} (hi : i < l.length)
    (hij : i ≠ j) :
    (swapL l i j).getD i default = l.getD j default := by
  simp [swapL, List.getD_eq_getElem?_getD, List.getElem?_set, hij, hij.symm, hi]

theorem getD_swapL_right [Inhabited α] (l : List α) {i j : Nat} (hj : j < l.length) :
    (swapL l i j).getD j default = l.getD i default := by
  simp [swapL, List.getD_eq_getElem?_getD, List.getElem?_set, hj]

theorem getD_swapL_other [Inhabited α] (l : List α) {i j k : Nat}
    (hki : k ≠ i) (hkj : k ≠ j) :
    (swapL l i j).getD k default = l.getD k default := by
  simp [swapL, List.getD_eq_getElem?_getD, List.getElem?_set, (Ne.symm hki), (Ne.symm hkj)]

theorem set_getD_self [Inhabited α] (l : List α) (i : Nat) :
    l.set i (l.getD i default) = l := by
  apply List.ext_getElem?
  intro n
  rw [List.getElem?_set]
  split
  · next h =>
    subst h
    split
    · next h2 =>
      simp [List.getD_eq_getElem?_getD, List.getElem?_eq_getElem h2]
    · next h2 =>
      exact (List.getElem?_eq_none (by omega)).symm
  · rfl

theorem perm_cons_set [Inhabited α] :
    ∀ (t : List α) (k : Nat) (a : α), k < t.length →
      (a :: t).Perm (t.getD k default :: t.set k a)
  | [], k, _, hk => by simp at hk
  | b :: t', 0, a, _ => by
    simpa using List.Perm.swap b a t'
  | b :: t', k + 1, a, hk => by
    have hk' : k < t'.length := by simpa using hk
    have h1 : (a :: b :: t').Perm (b :: a :: t') := List.Perm.swap b a t'
    have h2 : (b :: a :: t').Perm (b :: t'.getD k default :: t'.set k a) :=
      List.Perm.cons b (perm_cons_set t' k a hk')
    have h3 : (b :: t'.getD k default :: t'.set k a).Perm
        (t'.getD k default :: b :: t'.set k a) :=
      List.Perm.swap (t'.getD k default) b (t'.set k a)
    simpa using (h1.trans h2).trans h3

theorem swapL_comm [Inhabited α] (l : List α) {i j : Nat} (hij : i ≠ j) :
    swapL l i j = swapL l j i := by
  unfold swapL
  rw [List.set_comm _ _ _ hij]

theorem swapL_perm [Inhabited α] :
    ∀ (l : List α) (i j : Nat), i < l.length → j < l.length → (swapL l i j).Perm l
  | [], i, _, hi, _ => by simp at hi
  | a :: t, 0, 0, _, _ => by
    simp [swapL, List.set_set, set_getD_self]
  | a :: t, 0, k + 1, _, hj => by
    have hk : k < t.length := by simpa using hj
    have he : swapL (a :: t) 0 (k + 1) = t.getD k default :: t.set k a := by
      simp [swapL, List.getD_cons_succ]
    rw [he]
    exact (perm_cons_set t k a hk).symm
  | a :: t, m + 1, 0, hi, hj => by
    rw [swapL_comm _ (by omega)]
    have hk : m < t.length := by simpa using hi
    have he : swapL (a :: t) 0 (m + 1) = t.getD m default :: t.set m a := by
      simp [swapL, List.getD_cons_succ]
    rw [he]
    exact (perm_cons_set t m a hk).symm
  | a :: t, m + 1, k + 1, hi, hj => by
    have hm : m < t.length := by simpa using hi
    have hk : k < t.length := by simpa using hj
    have he : swapL (a :: t) (m + 1) (k + 1) = a :: swapL t m k := by
      simp [swapL, List.getD_cons_succ]
    rw [he]
    exact List.Perm.cons a (swapL_perm t m k hm hk)

/-- Laws a comparator must satisfy for the heap to order correctly;
the semaphore's (priority, sequence) comparator satisfies them. -/
structure CmpLaws (cmp : α → α → Int) : Prop where
  refl_ge : ∀ a, cmp a a ≥ 0
  asym : ∀ a b, cmp a b < 0 → cmp b a ≥ 0
  trans_ge : ∀ a b c, cmp a b ≥ 0 → cmp b c ≥ 0 → cmp a c ≥ 0
  trans_lt : ∀ a b c, cmp a b < 0 → cmp b c < 0 → cmp a c < 0

theorem parentIdx_lt {i : Nat} (h : 0 < i) : parentIdx i < i := by
  unfold parentIdx
  omega

theorem parentIdx_child {i j : Nat} (h : parentIdx j = i) (hj : 0 < j) :
    j = 2 * i + 1 ∨ j = 2 * i + 2 := by
  unfold parentIdx at h
  omega

theorem parentIdx_left (i : Nat) : parentIdx (2 * i + 1) = i := by
  unfold parentIdx
  omega

theorem parentIdx_right (i : Nat) : parentIdx (2 * i + 2) = i := by
  unfold parentIdx
  omega

theorem length_heapifyUp [Inhabited α] (cmp : α → α → Int) :
    ∀ (fuel : Nat) (l : List α) (i : Nat), (heapifyUp cmp fuel l i).length = l.length
  | 0, _, _ => rfl
  | fuel + 1, l, i => by
    unfold heapifyUp
    split
    · rfl
    split
    · rfl
    rw [length_heapifyUp cmp fuel]
    exact length_swapL l i (parentIdx i)

theorem heapifyUp_perm [Inhabited α] (cmp : α → α → Int) :
    ∀ (fuel : Nat) (l : List α) (i : Nat), i < l.length →
      (heapifyUp cmp fuel l i).Perm l
  | 0, _, _, _ => List.Perm.refl _
  | fuel + 1, l, i, hi => by
    unfold heapifyUp
    split
    · exact List.Perm.refl _
    split
    · exact List.Perm.refl _
    next hne _ =>
    have hp : parentIdx i < l.length := lt_trans (parentIdx_lt (Nat.pos_of_ne_zero hne)) hi
    have h1 : (swapL l i (parentIdx i)).Perm l := swapL_perm l i (parentIdx i) hi hp
    have h2 := heapifyUp_perm cmp fuel (swapL l i (parentIdx i)) (parentIdx i)
      (by rw [length_swapL]; exact hp)
    exact (h2.trans h1)

theorem length_heapifyDown [Inhabited α] (cmp : α → α → Int) :
    ∀ (fuel : Nat) (l : List α) (i : Nat), (heapifyDown cmp fuel l i).length = l.length
  | 0, _, _ => rfl
  | fuel + 1, l, i => by
    unfold heapifyDown
    split
    · rfl
    rw [length_heapifyDown cmp fuel]
    exact length_swapL l i _

/-- If one `#heapifyDown` step moves (`minIndex ≠ i`), the target is a
child of `i`, in range, sorting strictly before `i`, and it sorts
`≤` every in-range child of `i`. -/
theorem downTarget_spec [Inhabited α] {cmp : α → α → Int} (hc : CmpLaws cmp)
    (l : List α) (i : Nat) (hne : downTarget cmp l i ≠ i) :
    downTarget cmp l i < l.length ∧ i < downTarget cmp l i ∧
      parentIdx (downTarget cmp l i) = i ∧
      cmp (l.getD (downTarget cmp l i) default) (l.getD i default) < 0 ∧
      ∀ j, j < l.length → parentIdx j = i → 0 < j →
        cmp (l.getD j default) (l.getD (downTarget cmp l i) default) ≥ 0 := by
  by_cases h1 : 2 * i + 1 < l.length ∧ cmp (l.getD (2 * i + 1) default) (l.getD i default) < 0
  · have hm1 : downTarget1 cmp l i = 2 * i + 1 := by rw [downTarget1, if_pos h1]
    by_cases h2 : 2 * i + 2 < l.length ∧
        cmp (l.getD (2 * i + 2) default) (l.getD (downTarget1 cmp l i) default) < 0
    · -- minIndex = right child
      have hm : downTarget cmp l i = 2 * i + 2 := by rw [downTarget, if_pos h2]
      rw [hm]
      have h2' := h2.2
      rw [hm1] at h2'
      refine ⟨h2.1, by omega, parentIdx_right i, hc.trans_lt _ _ _ h2' h1.2, ?_⟩
      intro j hj hpj hj0
      rcases parentIdx_child hpj hj0 with hl | hr
      · subst hl
        exact hc.asym _ _ h2'
      · subst hr
        exact hc.refl_ge _
    · -- minIndex = left child
      have hm : downTarget cmp l i = 2 * i + 1 := by rw [downTarget, if_neg h2, hm1]
      rw [hm]
      refine ⟨h1.1, by omega, parentIdx_left i, h1.2, ?_⟩
      intro j hj hpj hj0
      rcases parentIdx_child hpj hj0 with hl | hr
      · subst hl
        exact hc.refl_ge _
      · subst hr
        rw [hm1] at h2
        have h2' : cmp (l.getD (2 * i + 2) default) (l.getD (2 * i + 1) default) ≥ 0 := by
          rcases not_and_or.mp h2 with h2 | h2
          · omega
          · omega
        exact h2'
  · have hm1 : downTarget1 cmp l i = i := by rw [downTarget1, if_neg h1]
    by_cases h2 : 2 * i + 2 < l.length ∧
        cmp (l.getD (2 * i + 2) default) (l.getD (downTarget1 cmp l i) default) < 0
    · -- minIndex = right child, left child not smaller than root
      have hm : downTarget cmp l i = 2 * i + 2 := by rw [downTarget, if_pos h2]
      rw [hm]
      have h2' := h2.2
      rw [hm1] at h2'
      refine ⟨h2.1, by omega, parentIdx_right i, h2', ?_⟩
      intro j hj hpj hj0
      rcases parentIdx_child hpj hj0 with hl | hr
      · subst hl
        have hlge : cmp (l.getD (2 * i + 1) default) (l.getD i default) ≥ 0 := by
          rcases not_and_or.mp h1 with h1 | h1
          · omega
          · omega
        exact hc.trans_ge _ _ _ hlge (hc.asym _ _ h2')
      · subst hr
        exact hc.refl_ge _
    · have hm : downTarget cmp l i = i := by rw [downTarget, if_neg h2, hm1]
      exact absurd hm hne

/-- If one `#heapifyDown` step stops (`minIndex = i`), no in-range child
of `i` sorts strictly before `i`. -/
theorem downTarget_stop [Inhabited α] {cmp : α → α → Int}
    (l : List α) (i : Nat) (heq : downTarget cmp l i = i) :
    ∀ j, j < l.length → parentIdx j = i → 0 < j →
      cmp (l.getD j default) (l.getD i default) ≥ 0 := by
  by_cases h1 : 2 * i + 1 < l.length ∧ cmp (l.getD (2 * i + 1) default) (l.getD i default) < 0
  · have hm1 : downTarget1 cmp l i = 2 * i + 1 := by rw [downTarget1, if_pos h1]
    by_cases h2 : 2 * i + 2 < l.length ∧
        cmp (l.getD (2 * i + 2) default) (l.getD (downTarget1 cmp l i) default) < 0
    · rw [downTarget, if_pos h2] at heq
      omega
    · rw [downTarget, if_neg h2, hm1] at heq
      omega
  · have hm1 : downTarget1 cmp l i = i := by rw [downTarget1, if_neg h1]
    by_cases h2 : 2 * i + 2 < l.length ∧
        cmp (l.getD (2 * i + 2) default) (l.getD (downTarget1 cmp l i) default) < 0
    · rw [downTarget, if_pos h2] at heq
      omega
    · intro j hj hpj hj0
      rw [hm1] at h2
      rcases parentIdx_child hpj hj0 with hl | hr
      · subst hl
        rcases not_and_or.mp h1 with h1 | h1
        · omega
        · omega
      · subst hr
        rcases not_and_or.mp h2 with h2 | h2
        · omega
        · omega

theorem heapifyDown_perm [Inhabited α] {cmp : α → α → Int} (hc : CmpLaws cmp) :
    ∀ (fuel : Nat) (l : List α) (i : Nat), i < l.length →
      (heapifyDown cmp fuel l i).Perm l
  | 0, _, _, _ => List.Perm.refl _
  | fuel + 1, l, i, hi => by
    unfold heapifyDown
    split
    · exact List.Perm.refl _
    next hne =>
    obtain ⟨hmlen, _, _, _, _⟩ := downTarget_spec hc l i hne
    have h1 : (swapL l i (downTarget cmp l i)).Perm l := swapL_perm l i _ hi hmlen
    have h2 := heapifyDown_perm hc fuel (swapL l i (downTarget cmp l i)) (downTarget cmp l i)
      (by rw [length_swapL]; exact hmlen)
    exact h2.trans h1

/-- Heap order everywhere except possibly at the edge from `i` up to
its parent (the sift-up loop invariant). -/
def HeapExceptAt [Inhabited α] (cmp : α → α → Int) (l : List α) (i : Nat) : Prop :=
  ∀ j, 0 < j → j < l.length → j ≠ i →
    cmp (l.getD j default) (l.getD (parentIdx j) default) ≥ 0

/-- During sift-up at `i`, the children of `i` also dominate the parent
of `i` (so a swap keeps them in heap order). -/
def UpChildrenOk [Inhabited α] (cmp : α → α → Int) (l : List α) (i : Nat) : Prop :=
  0 < i → ∀ j, j < l.length → parentIdx j = i →
    cmp (l.getD j default) (l.getD (parentIdx i) default) ≥ 0

theorem heapifyUp_isHeap [Inhabited α] {cmp : α → α → Int} (hc : CmpLaws cmp) :
    ∀ (fuel : Nat) (l : List α) (i : Nat), i < l.length → i + 1 ≤ fuel →
      HeapExceptAt cmp l i → UpChildrenOk cmp l i →
      IsHeap cmp (heapifyUp cmp fuel l i)
  | 0, _, _, _, hf, _, _ => by omega
  | fuel + 1, l, i, hi, hf, hA, hB => by
    unfold heapifyUp
    split
    · next h0 =>
      subst h0
      intro j hj0 hjl
      exact hA j hj0 hjl (by omega)
    split
    · next h0 hstop =>
      intro j hj0 hjl
      by_cases hji : j = i
      · subst hji
        exact hstop
      · exact hA j hj0 hjl hji
    next h0 hstop =>
    have hi0 : 0 < i := Nat.pos_of_ne_zero h0
    have hswap : cmp (l.getD i default) (l.getD (parentIdx i) default) < 0 := by omega
    set p := parentIdx i with hp
    have hpi : p < i := parentIdx_lt hi0
    have hplen : p < l.length := lt_trans hpi hi
    set l' := swapL l i p with hl'
    have hlen' : l'.length = l.length := length_swapL l i p
    have hgi : l'.getD i default = l.getD p default :=
      getD_swapL_left l hi (by omega)
    have hgp : l'.getD p default = l.getD i default := getD_swapL_right l hplen
    have hgo : ∀ k, k ≠ i → k ≠ p → l'.getD k default = l.getD k default :=
      fun k h1 h2 => getD_swapL_other l h1 h2
    apply heapifyUp_isHeap hc fuel l' p (by omega) (by omega)
    · -- HeapExceptAt l' p
      intro j hj0 hjl hjp
      rw [hlen'] at hjl
      by_cases hji : j = i
      · -- the moved-up edge (i, parentIdx i = p)
        subst hji
        rw [hgi, ← hp, hgp]
        exact hc.asym _ _ hswap
      · rw [hgo j hji hjp]
        rcases Nat.lt_trichotomy (parentIdx j) i with hq | hq | hq
        · by_cases hqp : parentIdx j = p
          · -- j is a child of p other than i
            rw [hqp, hgp]
            have hj1 : cmp (l.getD j default) (l.getD (parentIdx j) default) ≥ 0 :=
              hA j hj0 hjl hji
            rw [hqp] at hj1
            exact hc.trans_ge _ _ _ hj1 (hc.asym _ _ hswap)
          · rw [hgo (parentIdx j) (by omega) hqp]
            exact hA j hj0 hjl hji
        · -- j is a child of i
          rw [hq, hgi]
          have := hB hi0 j hjl hq
          rw [← hp] at this
          exact this
        · rw [hgo (parentIdx j) (by omega) (by omega)]
          exact hA j hj0 hjl hji
    · -- UpChildrenOk l' p
      intro hp0 j hjl hpj
      rw [hlen'] at hjl
      have hpp : parentIdx p < p := parentIdx_lt hp0
      have hjp : j ≠ p := by
        intro h
        rw [h] at hpj
        omega
      have hj0 : 0 < j := by
        rcases Nat.eq_zero_or_pos j with h | h
        · rw [h] at hpj
          unfold parentIdx at hpj
          omega
        · exact h
      have hppo : l'.getD (parentIdx p) default = l.getD (parentIdx p) default :=
        hgo (parentIdx p) (by omega) (by omega)
      rw [hppo]
      by_cases hji : j = i
      · subst hji
        rw [hgi]
        exact hA p hp0 hplen (by omega)
      · rw [hgo j hji hjp]
        have hj1 : cmp (l.getD j default) (l.getD (parentIdx j) default) ≥ 0 :=
          hA j hj0 hjl hji
        rw [hpj] at hj1
        exact hc.trans_ge _ _ _ hj1 (hA p hp0 hplen (by omega))

/-- Heap order everywhere except possibly at the edges from the
children of `i` up to `i` (the sift-down loop invariant). -/
def HeapExceptBelow [Inhabited α] (cmp : α → α → Int) (l : List α) (i : Nat) : Prop :=
  ∀ j, 0 < j → j < l.length → parentIdx j ≠ i →
    cmp (l.getD j default) (l.getD (parentIdx j) default) ≥ 0

/-- During sift-down at `i`, the children of `i` still dominate the
parent of `i` (so a swap keeps the edge from `i` upward in order). -/
def DownChildrenOk [Inhabited α] (cmp : α → α → Int) (l : List α) (i : Nat) : Prop :=
  0 < i → ∀ j, j < l.length → parentIdx j = i →
    cmp (l.getD j default) (l.getD (parentIdx i) default) ≥ 0

theorem heapifyDown_isHeap [Inhabited α] {cmp : α → α → Int} (hc : CmpLaws cmp) :
    ∀ (fuel : Nat) (l : List α) (i : Nat), i < l.length → l.length - i ≤ fuel →
      HeapExceptBelow cmp l i → DownChildrenOk cmp l i →
      IsHeap cmp (heapifyDown cmp fuel l i)
  | 0, _, _, hi, hf, _, _ => by omega
  | fuel + 1, l, i, hi, hf, hA, hB => by
    unfold heapifyDown
    split
    · next heq =>
      have hstop := downTarget_stop l i heq
      intro j hj0 hjl
      by_cases hpj : parentIdx j = i
      · rw [hpj]
        exact hstop j hjl hpj hj0
      · exact hA j hj0 hjl hpj
    next hne =>
    obtain ⟨hmlen, him, hpm, hlt, hmin⟩ := downTarget_spec hc l i hne
    set m := downTarget cmp l i with hm
    set l' := swapL l i m with hl'
    have hlen' : l'.length = l.length := length_swapL l i m
    have hgi : l'.getD i default = l.getD m default :=
      getD_swapL_left l hi (by omega)
    have hgm : l'.getD m default = l.getD i default := getD_swapL_right l hmlen
    have hgo : ∀ k, k ≠ i → k ≠ m → l'.getD k default = l.getD k default :=
      fun k h1 h2 => getD_swapL_other l h1 h2
    apply heapifyDown_isHeap hc fuel l' m (by omega) (by omega)
    · -- HeapExceptBelow l' m
      intro j hj0 hjl hpjm
      rw [hlen'] at hjl
      by_cases hji : j = i
      · -- edge from i up to its (unchanged) parent
        have hi0 : 0 < i := hji ▸ hj0
        have hpI : parentIdx i < i := parentIdx_lt hi0
        rw [hji, hgi, hgo (parentIdx i) (by omega) (by omega)]
        exact hB hi0 m hmlen hpm
      · by_cases hjm : j = m
        · -- the moved-down edge (m, parentIdx m = i)
          subst hjm
          rw [hgm, hpm, hgi]
          exact hc.asym _ _ hlt
        · rw [hgo j hji hjm]
          by_cases hpji : parentIdx j = i
          · -- j is a child of i other than m
            rw [hpji, hgi]
            exact hmin j hjl hpji hj0
          · rw [hgo (parentIdx j) hpji hpjm]
            exact hA j hj0 hjl hpji
    · -- DownChildrenOk l' m
      intro hm0 j hjl hpjm
      rw [hlen'] at hjl
      have hmj : m < j := by
        have hx : parentIdx j < j := parentIdx_lt (by
          rcases Nat.eq_zero_or_pos j with h | h
          · rw [h] at hpjm
            unfold parentIdx at hpjm
            omega
          · exact h)
        omega
      have hpji : parentIdx j ≠ i := by
        rw [hpjm]
        omega
      rw [hpm, hgi, hgo j (by omega) (by omega)]
      have hres := hA j (by omega) hjl hpji
      rw [hpjm] at hres
      exact hres

theorem getD_append_left (l l2 : List α) (n : Nat) (d : α) (h : n < l.length) :
    (l ++ l2).getD n d = l.getD n d := by
  rw [List.getD_eq_getElem?_getD, List.getD_eq_getElem?_getD, List.getElem?_append,
    if_pos h]

theorem heapInsert_perm [Inhabited α] (cmp : α → α → Int) (l : List α) (v : α) :
    (heapInsert cmp l v).Perm (l ++ [v]) := by
  unfold heapInsert
  exact heapifyUp_perm cmp (l.length + 1) (l ++ [v]) l.length (by simp)

theorem length_heapInsert [Inhabited α] (cmp : α → α → Int) (l : List α) (v : α) :
    (heapInsert cmp l v).length = l.length + 1 := by
  unfold heapInsert
  rw [length_heapifyUp]
  simp

theorem heapInsert_isHeap [Inhabited α] {cmp : α → α → Int} (hc : CmpLaws cmp)
    (l : List α) (v : α) (h : IsHeap cmp l) : IsHeap cmp (heapInsert cmp l v) := by
  unfold heapInsert
  apply heapifyUp_isHeap hc _ _ _ (by simp) (by simp)
  · intro j hj0 hjl hjn
    have hjl' : j < l.length := by
      simp at hjl
      omega
    have hpl : parentIdx j < l.length := lt_trans (parentIdx_lt hj0) hjl'
    rw [getD_append_left _ _ _ _ hjl', getD_append_left _ _ _ _ hpl]
    exact h j hj0 hjl'
  · intro h0 j hjl hpj
    unfold parentIdx at hpj
    have : j = 2 * l.length + 1 ∨ j = 2 * l.length + 2 := by omega
    simp at hjl
    omega

theorem isHeap_root_ge [Inhabited α] {cmp : α → α → Int} (hc : CmpLaws cmp)
    {l : List α} (h : IsHeap cmp l) :
    ∀ j, j < l.length → cmp (l.getD j default) (l.getD 0 default) ≥ 0 := by
  intro j
  induction j using Nat.strong_induction_on with
  | _ j ih =>
    intro hjl
    rcases Nat.eq_zero_or_pos j with hj0 | hj0
    · subst hj0
      exact hc.refl_ge _
    · have h1 := h j hj0 hjl
      have h2 := ih (parentIdx j) (parentIdx_lt hj0)
        (lt_trans (parentIdx_lt hj0) hjl)
      exact hc.trans_ge _ _ _ h1 h2

theorem heapPop_some [Inhabited α] (cmp : α → α → Int) (l : List α) (hne : l ≠ []) :
    ∃ g l', heapPop cmp l = (some g, l') := by
  match l with
  | [x] => exact ⟨x, [], rfl⟩
  | x :: y :: t => exact ⟨x, _, rfl⟩

/-- The list set up by `pop()` before sifting down: last element moved
to the root, last slot dropped. -/
def popSeed [Inhabited α] (l : List α) : List α :=
  (l.set 0 (l.getD (l.length - 1) default)).dropLast

theorem popSeed_cons [Inhabited α] (x y : α) (t : List α) :
    popSeed (x :: y :: t) =
      (y :: t).getLast (by simp) :: (y :: t).dropLast := by
  unfold popSeed
  have hlen : (x :: y :: t).length - 1 = t.length + 1 := by simp
  have hget : (x :: y :: t).getD (t.length + 1) default =
      (y :: t).getLast (by simp) := by
    rw [List.getD_cons_succ, List.getLast_eq_getElem,
      List.getD_eq_getElem (l := y :: t) default (n := t.length) (by simp)]
    simp
  rw [hlen, hget]
  exact List.dropLast_cons₂

theorem popSeed_perm [Inhabited α] (x y : α) (t : List α) :
    (x :: popSeed (x :: y :: t)).Perm (x :: y :: t) := by
  rw [popSeed_cons]
  apply List.Perm.cons x
  have h := List.dropLast_append_getLast (l := y :: t) (by simp)
  have h2 := List.perm_append_singleton ((y :: t).getLast (by simp)) ((y :: t).dropLast)
  rw [h] at h2
  exact h2.symm

theorem popSeed_getD [Inhabited α] (l : List α) (k : Nat) (hk1 : 1 ≤ k)
    (hk2 : k < l.length - 1) :
    (popSeed l).getD k default = l.getD k default := by
  unfold popSeed
  rw [List.getD_eq_getElem?_getD, List.getElem?_dropLast, List.length_set,
    if_pos hk2, List.getElem?_set_ne (by omega), ← List.getD_eq_getElem?_getD]

theorem length_popSeed [Inhabited α] (l : List α) :
    (popSeed l).length = l.length - 1 := by
  unfold popSeed
  simp

theorem heapPop_perm [Inhabited α] {cmp : α → α → Int} (hc : CmpLaws cmp)
    {l : List α} {g : α} {l' : List α} (h : heapPop cmp l = (some g, l')) :
    l.Perm (g :: l') := by
  match l with
  | [] => simp [heapPop] at h
  | [x] =>
    injection h with h1 h2
    injection h1 with h1
    subst h1
    subst h2
    exact List.Perm.refl _
  | x :: y :: t =>
    injection h with h1 h2
    injection h1 with h1
    subst h1
    rw [← h2]
    show (x :: y :: t).Perm
      (x :: heapifyDown cmp (popSeed (x :: y :: t)).length (popSeed (x :: y :: t)) 0)
    have hperm := heapifyDown_perm hc (popSeed (x :: y :: t)).length
      (popSeed (x :: y :: t)) 0 (by rw [length_popSeed]; simp)
    exact ((List.Perm.cons x hperm).trans (popSeed_perm x y t)).symm

theorem heapPop_isHeap [Inhabited α] {cmp : α → α → Int} (hc : CmpLaws cmp)
    {l : List α} {g : α} {l' : List α} (hheap : IsHeap cmp l)
    (h : heapPop cmp l = (some g, l')) : IsHeap cmp l' := by
  match l with
  | [] => simp [heapPop] at h
  | [x] =>
    injection h with h1 h2
    subst h2
    intro j hj0 hjl
    simp at hjl
  | x :: y :: t =>
    injection h with h1 h2
    rw [← h2]
    show IsHeap cmp (heapifyDown cmp (popSeed (x :: y :: t)).length
      (popSeed (x :: y :: t)) 0)
    set l0 := popSeed (x :: y :: t) with hl0
    have hlen0 : l0.length = t.length + 1 := by
      rw [hl0, length_popSeed]
      simp
    apply heapifyDown_isHeap hc l0.length l0 0 (by omega) (by omega)
    · intro j hj0 hjl hpj
      have hp0 : 0 < parentIdx j := Nat.pos_of_ne_zero hpj
      have hpJ : parentIdx j < j := parentIdx_lt hj0
      rw [hlen0] at hjl
      have hllen : (x :: y :: t).length = t.length + 2 := by simp
      rw [hl0, popSeed_getD _ _ (by omega) (by omega),
        popSeed_getD _ _ (by omega) (by omega)]
      exact hheap j hj0 (by omega)
    · intro h0
      omega

theorem heapPop_min [Inhabited α] {cmp : α → α → Int} (hc : CmpLaws cmp)
    {l : List α} {g : α} {l' : List α} (hheap : IsHeap cmp l)
    (h : heapPop cmp l = (some g, l')) :
    ∀ y ∈ l, cmp y g ≥ 0 := by
  have hg : g = l.getD 0 default := by
    match l with
    | [] => simp [heapPop] at h
    | [x] =>
      injection h with h1 h2
      injection h1 with h1
      rw [← h1, List.getD_cons_zero]
    | x :: y :: t =>
      injection h with h1 h2
      injection h1 with h1
      rw [← h1, List.getD_cons_zero]
  subst hg
  intro y hy
  obtain ⟨n, hn, hv⟩ := List.mem_iff_getElem.mp hy
  have := isHeap_root_ge hc hheap n hn
  rw [List.getD_eq_getElem _ _ hn, hv] at this
  exact this

/-! ### Semaphore (src/src/semaphore.ts, class `DefaultSemaphore`)

A waiter's `resolve` callback is replaced by its unique `sequence`
number (the callback holds no data; granting is reported as an event).
`#permits` is a JS number, embedded as `Int`. -/

/-- A `WaitingEntry` minus its `resolve` callback. -/
structure WaitingEntry where
  priority : Int
  sequence : Nat
  aborted : Bool
deriving Repr, DecidableEq, Inhabited

/-- The comparator passed to `new BinaryHeap(...)`: priority first,
then sequence for FIFO within the same priority. -/
def semCmp (a b : WaitingEntry) : Int :=
  if a.priority ≠ b.priority then a.priority - b.priority
  else (a.sequence : Int) - (b.sequence : Int)

theorem semCmp_laws : CmpLaws semCmp := by
  constructor
  · intro a
    simp [semCmp]
  · intro a b
    unfold semCmp
    by_cases h : a.priority = b.priority
    · simp [h]
      omega
    · simp [h, Ne.symm h]
      omega
  · intro a b c
    unfold semCmp
    by_cases h1 : a.priority = b.priority
    · by_cases h2 : b.priority = c.priority
      · simp [h1, h2, h1.trans h2]
        omega
      · simp [h1, h2, h1 ▸ h2]
        try omega
    · by_cases h2 : b.priority = c.priority
      · simp [h1, h2, h2 ▸ h1]
        omega
      · by_cases h3 : a.priority = c.priority
        · simp [h1, h2, h3]
          omega
        · simp [h1, h2, h3]
          omega
  · intro a b c
    unfold semCmp
    by_cases h1 : a.priority = b.priority
    · by_cases h2 : b.priority = c.priority
      · simp [h1, h2, h1.trans h2]
        omega
      · simp [h1, h2, h1 ▸ h2]
        try omega
    · by_cases h2 : b.priority = c.priority
      · simp [h1, h2, h2 ▸ h1]
        omega
      · by_cases h3 : a.priority = c.priority
        · simp [h1, h2, h3]
          omega
        · simp [h1, h2, h3]
          omega

/-- Antisymmetry of the semaphore comparator. -/
theorem semCmp_neg (a b : WaitingEntry) : semCmp a b = -semCmp b a := by
  unfold semCmp
  by_cases h : a.priority = b.priority
  · simp [h]
    try omega
  · simp [h, Ne.symm h]
    try omega

/-- The private state of a `DefaultSemaphore` (`#waiting` is the
`#data` array of its `BinaryHeap`). -/
structure SemState where
  permits : Int
  maxPermits : Int
  waiting : List WaitingEntry
  counter : Nat
deriving Repr, DecidableEq

/-- `newSemaphore(permits)`. -/
def newSemaphore (permits : Int) : SemState :=
  { permits := permits, maxPermits := permits, waiting := [], counter := 0 }

inductive SemErr where
  | cancelled
  | overRelease
deriving Repr, DecidableEq

inductive AcquireResult where
  /-- A permit was available; the caller got it synchronously. -/
  | granted
  /-- The caller was suspended as the waiter with this sequence number. -/
  | suspended (seq : Nat)
deriving Repr, DecidableEq

/-- `acquire(options)`.  `sigAborted` is the value of
`signal.aborted` at entry (`throwIfAborted` throws exactly then). -/
def semAcquire (s : SemState) (priority : Int) (sigAborted : Bool) :
    Except SemErr AcquireResult × SemState :=
  if sigAborted then (.error .cancelled, s)
  else if s.permits > 0 then
    (.ok .granted, { s with permits := s.permits - 1 })
  else
    let seq := s.counter
    (.ok (.suspended seq),
      { s with
        waiting := heapInsert semCmp s.waiting
          { priority := priority, sequence := seq, aborted := false }
        counter := s.counter + 1 })

/-- `maybeAcquire()`: `some` of the new state on success, `none` when
no permit is available. -/
def semMaybeAcquire (s : SemState) : Option SemState :=
  if s.permits > 0 then some { s with permits := s.permits - 1 } else none

/-- The `while` loop of `release()`: keep popping until a non-aborted
entry is found or the heap is empty.  Fuel bounds the iteration count;
`waiting.length` always suffices because each `pop` shrinks the heap. -/
def releaseLoop : Nat → List WaitingEntry → Option WaitingEntry × List WaitingEntry
  | 0, w => (none, w)
  | fuel + 1, w =>
    if w.length > 0 then
      match heapPop semCmp w with
      | (some next, w') => if !next.aborted then (some next, w') else releaseLoop fuel w'
      | (none, w') => (none, w')
    else (none, w)

inductive ReleaseResult where
  /-- A waiter was popped and resolved (its pending acquire returns). -/
  | grantedTo (e : WaitingEntry)
  /-- No live waiter: the available count was incremented. -/
  | incremented
deriving Repr, DecidableEq

/-- `release()`.  On over-release the `CrntError` is thrown after the
draining loop already ran, so the returned state keeps the drained
heap but the permit count is untouched. -/
def semRelease (s : SemState) : Except SemErr ReleaseResult × SemState :=
  match releaseLoop s.waiting.length s.waiting with
  | (some e, w') => (.ok (.grantedTo e), { s with waiting := w' })
  | (none, w') =>
    if s.permits ≥ s.maxPermits then (.error .overRelease, { s with waiting := w' })
    else (.ok .incremented, { s with waiting := w', permits := s.permits + 1 })

/-- The `onAbort` listener of a suspended `acquire`: mark the entry
aborted (it stays in the heap) and reject the pending promise with the
signal's reason.  The listener only exists while the waiter is
unresolved, i.e. while a non-aborted entry with this sequence is in
the heap; `none` means the listener was already removed, so aborting
has no effect. -/
def markAborted (seq : Nat) (e : WaitingEntry) : WaitingEntry :=
  if e.sequence = seq then { e with aborted := true } else e

def semCancel (seq : Nat) (reason : ρ) (s : SemState) : Option ρ × SemState :=
  (if s.waiting.any (fun e => e.sequence == seq && !e.aborted) then some reason else none,
    { s with waiting := s.waiting.map (markAborted seq) })

/-- One public operation on a semaphore (cancellation of a pending
acquire arrives out of band, so it is an operation too). -/
inductive SemOp where
  | acq (priority : Int) (sigAborted : Bool)
  | macq
  | rel
  | cancel (seq : Nat)

def semStep (s : SemState) : SemOp → SemState
  | .acq priority sigAborted => (semAcquire s priority sigAborted).2
  | .macq => (semMaybeAcquire s).getD s
  | .rel => (semRelease s).2
  | .cancel seq => (semCancel seq () s).2

/-- Run a sequence of operations from a state. -/
def semRun (s : SemState) (ops : List SemOp) : SemState :=
  ops.foldl semStep s

theorem releaseLoop_eq_pos (fuel : Nat) (w : List WaitingEntry) (hlen : w.length > 0)
    (g : WaitingEntry) (w1 : List WaitingEntry) (hpop : heapPop semCmp w = (some g, w1)) :
    releaseLoop (fuel + 1) w =
      if !g.aborted then (some g, w1) else releaseLoop fuel w1 := by
  conv_lhs => unfold releaseLoop
  rw [if_pos hlen, hpop]

theorem releaseLoop_mem :
    ∀ (fuel : Nat) (w : List WaitingEntry) (e : WaitingEntry),
      e ∈ (releaseLoop fuel w).2 → e ∈ w
  | 0, w, e, h => h
  | fuel + 1, w, e, h => by
    by_cases hlen : w.length > 0
    · have hne : w ≠ [] := by
        intro hx
        rw [hx] at hlen
        simp at hlen
      obtain ⟨g, w1, hpop⟩ := heapPop_some semCmp w hne
      have hperm := heapPop_perm semCmp_laws hpop
      rw [releaseLoop_eq_pos fuel w hlen g w1 hpop] at h
      split at h
      · exact hperm.mem_iff.mpr (List.mem_cons_of_mem g h)
      · have := releaseLoop_mem fuel w1 e h
        exact hperm.mem_iff.mpr (List.mem_cons_of_mem g this)
    · unfold releaseLoop at h
      rw [if_neg hlen] at h
      exact h

theorem releaseLoop_grant :
    ∀ (fuel : Nat) (w : List WaitingEntry) (g : WaitingEntry),
      (releaseLoop fuel w).1 = some g → g ∈ w ∧ g.aborted = false
  | 0, w, g, h => by simp [releaseLoop] at h
  | fuel + 1, w, g, h => by
    by_cases hlen : w.length > 0
    · have hne : w ≠ [] := by
        intro hx
        rw [hx] at hlen
        simp at hlen
      obtain ⟨g0, w1, hpop⟩ := heapPop_some semCmp w hne
      have hperm := heapPop_perm semCmp_laws hpop
      rw [releaseLoop_eq_pos fuel w hlen g0 w1 hpop] at h
      split at h
      · next hab =>
        injection h with h
        subst h
        exact ⟨hperm.mem_iff.mpr (List.mem_cons_self _ _), by simpa using hab⟩
      · have := releaseLoop_grant fuel w1 g h
        exact ⟨hperm.mem_iff.mpr (List.mem_cons_of_mem g0 this.1), this.2⟩
    · unfold releaseLoop at h
      rw [if_neg hlen] at h
      simp at h

theorem releaseLoop_isHeap :
    ∀ (fuel : Nat) (w : List WaitingEntry), IsHeap semCmp w →
      IsHeap semCmp (releaseLoop fuel w).2
  | 0, w, hh => hh
  | fuel + 1, w, hh => by
    by_cases hlen : w.length > 0
    · have hne : w ≠ [] := by
        intro hx
        rw [hx] at hlen
        simp at hlen
      obtain ⟨g, w1, hpop⟩ := heapPop_some semCmp w hne
      have h1 := heapPop_isHeap semCmp_laws hh hpop
      rw [releaseLoop_eq_pos fuel w hlen g w1 hpop]
      split
      · exact h1
      · exact releaseLoop_isHeap fuel w1 h1
    · unfold releaseLoop
      rw [if_neg hlen]
      exact hh

theorem releaseLoop_pairwise {R : WaitingEntry → WaitingEntry → Prop}
    (hsymm : Symmetric R) :
    ∀ (fuel : Nat) (w : List WaitingEntry), w.Pairwise R →
      (releaseLoop fuel w).2.Pairwise R
  | 0, w, hp => hp
  | fuel + 1, w, hp => by
    by_cases hlen : w.length > 0
    · have hne : w ≠ [] := by
        intro hx
        rw [hx] at hlen
        simp at hlen
      obtain ⟨g, w1, hpop⟩ := heapPop_some semCmp w hne
      have hperm := heapPop_perm semCmp_laws hpop
      have hp1 : (g :: w1).Pairwise R := (hperm.pairwise_iff (fun h => hsymm h)).mp hp
      rw [releaseLoop_eq_pos fuel w hlen g w1 hpop]
      split
      · exact hp1.tail
      · exact releaseLoop_pairwise hsymm fuel w1 hp1.tail
    · unfold releaseLoop
      rw [if_neg hlen]
      exact hp

/-- If every entry is aborted, the release loop finds nothing to grant. -/
theorem releaseLoop_all_aborted :
    ∀ (fuel : Nat) (w : List WaitingEntry), (∀ e ∈ w, e.aborted = true) →
      (releaseLoop fuel w).1 = none
  | 0, _, _ => rfl
  | fuel + 1, w, hab => by
    by_cases hlen : w.length > 0
    · have hne : w ≠ [] := by
        intro hx
        rw [hx] at hlen
        simp at hlen
      obtain ⟨g, w1, hpop⟩ := heapPop_some semCmp w hne
      have hperm := heapPop_perm semCmp_laws hpop
      have hg : g.aborted = true := hab g (hperm.mem_iff.mpr (List.mem_cons_self _ _))
      rw [releaseLoop_eq_pos fuel w hlen g w1 hpop, hg]
      simp only [Bool.not_true, Bool.false_eq_true, if_false]
      exact releaseLoop_all_aborted fuel w1 fun e he =>
        hab e (hperm.mem_iff.mpr (List.mem_cons_of_mem g he))
    · unfold releaseLoop
      rw [if_neg hlen]

/-- When a live (non-aborted) waiter exists and the heap invariant
holds, the release loop grants the minimal live waiter: the popped-over
prefix is entirely aborted and the grant compares `≤ 0` against every
live entry. -/
theorem releaseLoop_min :
    ∀ (fuel : Nat) (w : List WaitingEntry), w.length ≤ fuel →
      IsHeap semCmp w → (∃ e ∈ w, e.aborted = false) →
      ∃ g w' dropped,
        releaseLoop fuel w = (some g, w') ∧ g.aborted = false ∧
        (∀ e ∈ w, e.aborted = false → semCmp g e ≤ 0) ∧
        w.Perm (dropped ++ g :: w') ∧ (∀ d ∈ dropped, d.aborted = true) ∧
        IsHeap semCmp w'
  | 0, w, hf, _, hex => by
    obtain ⟨e, he, _⟩ := hex
    have : w = [] := List.length_eq_zero.mp (by omega)
    rw [this] at he
    simp at he
  | fuel + 1, w, hf, hh, hex => by
    obtain ⟨e0, he0, hab0⟩ := hex
    have hne : w ≠ [] := by
      intro hx
      rw [hx] at he0
      simp at he0
    obtain ⟨g0, w1, hpop⟩ := heapPop_some semCmp w hne
    have hperm := heapPop_perm semCmp_laws hpop
    have hmin := heapPop_min semCmp_laws hh hpop
    have hheap1 := heapPop_isHeap semCmp_laws hh hpop
    have hlen1 : w.length = w1.length + 1 := by
      have := hperm.length_eq
      simpa using this
    have hlen : w.length > 0 := by
      cases w
      · simp at hne
      · simp
    rw [releaseLoop_eq_pos fuel w hlen g0 w1 hpop]
    by_cases hg0 : g0.aborted = false
    · rw [hg0]
      simp only [Bool.not_false, if_true]
      refine ⟨g0, w1, [], rfl, hg0, ?_, by simpa using hperm, by simp, hheap1⟩
      intro e he _
      have := hmin e he
      rw [semCmp_neg]
      omega
    · have hg0' : g0.aborted = true := by
        cases hx : g0.aborted
        · exact absurd hx hg0
        · rfl
      rw [hg0']
      simp only [Bool.not_true, Bool.false_eq_true, if_false]
      have hex1 : ∃ e ∈ w1, e.aborted = false := by
        refine ⟨e0, ?_, hab0⟩
        have : e0 ∈ g0 :: w1 := hperm.mem_iff.mp he0
        rcases List.mem_cons.mp this with h | h
        · rw [h] at hab0
          rw [hab0] at hg0'
          simp at hg0'
        · exact h
      obtain ⟨g, w', dropped, hrl, hgab, hmin', hperm', hdr, hh'⟩ :=
        releaseLoop_min fuel w1 (by omega) hheap1 hex1
      refine ⟨g, w', g0 :: dropped, hrl, hgab, ?_, ?_, ?_, hh'⟩
      · intro e he hab
        have : e ∈ g0 :: w1 := hperm.mem_iff.mp he
        rcases List.mem_cons.mp this with h | h
        · rw [h] at hab
          rw [hab] at hg0'
          simp at hg0'
        · exact hmin' e h hab
      · refine hperm.trans ?_
        have : (g0 :: w1).Perm (g0 :: (dropped ++ g :: w')) := List.Perm.cons g0 hperm'
        simpa using this
      · intro d hd
        rcases List.mem_cons.mp hd with h | h
        · rw [h]
          exact hg0'
        · exact hdr d h

theorem markAborted_priority (seq : Nat) (e : WaitingEntry) :
    (markAborted seq e).priority = e.priority := by
  unfold markAborted
  split <;> rfl

theorem markAborted_sequence (seq : Nat) (e : WaitingEntry) :
    (markAborted seq e).sequence = e.sequence := by
  unfold markAborted
  split <;> rfl

theorem semCmp_markAborted (seq : Nat) (a b : WaitingEntry) :
    semCmp (markAborted seq a) (markAborted seq b) = semCmp a b := by
  unfold semCmp
  rw [markAborted_priority, markAborted_priority, markAborted_sequence,
    markAborted_sequence]

theorem getD_map_markAborted (seq : Nat) (w : List WaitingEntry) (j : Nat)
    (hj : j < w.length) :
    (w.map (markAborted seq)).getD j default = markAborted seq (w.getD j default) := by
  rw [List.getD_eq_getElem?_getD, List.getD_eq_getElem?_getD, List.getElem?_map,
    List.getElem?_eq_getElem hj]
  rfl

theorem isHeap_map_markAborted (seq : Nat) (w : List WaitingEntry)
    (h : IsHeap semCmp w) : IsHeap semCmp (w.map (markAborted seq)) := by
  intro j hj0 hjl
  rw [List.length_map] at hjl
  have hpl : parentIdx j < w.length := lt_trans (parentIdx_lt hj0) hjl
  rw [getD_map_markAborted seq w j hjl, getD_map_markAborted seq w _ hpl,
    semCmp_markAborted]
  exact h j hj0 hjl

/-- Invariant of every reachable semaphore state: the permit count
stays within `[0, n]`, `maxPermits` is fixed, the waiter array is a
binary heap, and waiter sequence numbers are unique and below the
counter. -/
def SemInv (n : Int) (s : SemState) : Prop :=
  0 ≤ s.permits ∧ s.permits ≤ n ∧ s.maxPermits = n ∧
  IsHeap semCmp s.waiting ∧
  (∀ e ∈ s.waiting, e.sequence < s.counter) ∧
  s.waiting.Pairwise (fun a b => a.sequence ≠ b.sequence)

theorem semStep_inv {n : Int} {s : SemState} (op : SemOp) (h : SemInv n s) :
    SemInv n (semStep s op) := by
  obtain ⟨h0, h1, h2, h3, h4, h5⟩ := h
  cases op with
  | acq priority sigAborted =>
    show SemInv n (semAcquire s priority sigAborted).2
    unfold semAcquire
    by_cases hsig : sigAborted
    · rw [if_pos hsig]
      exact ⟨h0, h1, h2, h3, h4, h5⟩
    · rw [if_neg hsig]
      by_cases hp : s.permits > 0
      · rw [if_pos hp]
        refine ⟨?_, ?_, h2, h3, h4, h5⟩
        · show (0:Int) ≤ s.permits - 1
          omega
        · show s.permits - 1 ≤ n
          omega
      · rw [if_neg hp]
        refine ⟨h0, h1, h2, ?_, ?_, ?_⟩
        · exact heapInsert_isHeap semCmp_laws _ _ h3
        · intro e he
          have hperm := heapInsert_perm semCmp s.waiting
            { priority := priority, sequence := s.counter, aborted := false }
          have : e ∈ s.waiting ++
              [{ priority := priority, sequence := s.counter, aborted := false }] :=
            hperm.mem_iff.mp he
          rcases List.mem_append.mp this with hm | hm
          · have := h4 e hm
            simp only
            omega
          · simp at hm
            rw [hm]
            simp only
            omega
        · have hperm := heapInsert_perm semCmp s.waiting
            { priority := priority, sequence := s.counter, aborted := false }
          apply (hperm.pairwise_iff (fun h => Ne.symm h)).mpr
          rw [List.pairwise_append]
          refine ⟨h5, List.pairwise_singleton _ _, ?_⟩
          intro a ha b hb
          simp at hb
          rw [hb]
          have := h4 a ha
          simp only
          omega
  | macq =>
    show SemInv n ((semMaybeAcquire s).getD s)
    unfold semMaybeAcquire
    by_cases hp : s.permits > 0
    · rw [if_pos hp]
      refine ⟨?_, ?_, h2, h3, h4, h5⟩
      · show (0:Int) ≤ s.permits - 1
        omega
      · show s.permits - 1 ≤ n
        omega
    · rw [if_neg hp]
      exact ⟨h0, h1, h2, h3, h4, h5⟩
  | rel =>
    show SemInv n (semRelease s).2
    unfold semRelease
    rcases hrl : releaseLoop s.waiting.length s.waiting with ⟨res, w'⟩
    have hw'heap : IsHeap semCmp w' := by
      have := releaseLoop_isHeap s.waiting.length s.waiting h3
      rw [hrl] at this
      exact this
    have hw'mem : ∀ e ∈ w', e ∈ s.waiting := by
      intro e he
      apply releaseLoop_mem s.waiting.length s.waiting e
      rw [hrl]
      exact he
    have hw'pw : w'.Pairwise (fun a b => a.sequence ≠ b.sequence) := by
      have := releaseLoop_pairwise (R := fun a b => a.sequence ≠ b.sequence)
        (fun x y h => Ne.symm h) s.waiting.length s.waiting h5
      rw [hrl] at this
      exact this
    cases res with
    | some e =>
      exact ⟨h0, h1, h2, hw'heap, fun e he => h4 e (hw'mem e he), hw'pw⟩
    | none =>
      show SemInv n (if s.permits ≥ s.maxPermits
        then ((Except.error SemErr.overRelease, { s with waiting := w' }) :
          Except SemErr ReleaseResult × SemState)
        else (Except.ok ReleaseResult.incremented,
          { s with waiting := w', permits := s.permits + 1 })).2
      by_cases hge : s.permits ≥ s.maxPermits
      · rw [if_pos hge]
        exact ⟨h0, h1, h2, hw'heap, fun e he => h4 e (hw'mem e he), hw'pw⟩
      · rw [if_neg hge]
        refine ⟨?_, ?_, h2, hw'heap, fun e he => h4 e (hw'mem e he), hw'pw⟩
        · show (0:Int) ≤ s.permits + 1
          omega
        · show s.permits + 1 ≤ n
          omega
  | cancel seq =>
    show SemInv n (semCancel seq () s).2
    unfold semCancel
    refine ⟨h0, h1, h2, isHeap_map_markAborted seq s.waiting h3, ?_, ?_⟩
    · intro e he
      obtain ⟨e0, he0, heq⟩ := List.mem_map.mp he
      rw [← heq, markAborted_sequence]
      exact h4 e0 he0
    · rw [List.pairwise_map]
      apply List.Pairwise.imp ?_ h5
      intro a b hab
      rw [markAborted_sequence, markAborted_sequence]
      exact hab

theorem semRun_inv {n : Int} :
    ∀ (ops : List SemOp) (s : SemState), SemInv n s → SemInv n (semRun s ops)
  | [], _, h => h
  | op :: ops, s, h => semRun_inv ops (semStep s op) (semStep_inv op h)

theorem newSemaphore_inv {n : Int} (hn : 0 ≤ n) : SemInv n (newSemaphore n) := by
  refine ⟨hn, le_refl n, rfl, ?_, ?_, ?_⟩
  · intro j hj0 hjl
    simp [newSemaphore] at hjl
  · intro e he
    simp [newSemaphore] at he
  · simp [newSemaphore]

/-- C1: for every sequence of acquire/maybeAcquire/release (and
cancellation) operations on a semaphore created with `n` permits, the
available-permit count stays within `0 ≤ availablePermits ≤ n`; and a
`release()` performed when no pending waiter exists and
`availablePermits` already equals `maxPermits` fails with the
usage-contract `CrntError` and does not increment the count. -/
theorem C1_semaphore_bounds :
    (∀ (n : Int), 0 ≤ n → ∀ ops : List SemOp,
      0 ≤ (semRun (newSemaphore n) ops).permits ∧
      (semRun (newSemaphore n) ops).permits ≤ n) ∧
    (∀ s : SemState, s.waiting = [] → s.permits = s.maxPermits →
      (semRelease s).1 = Except.error SemErr.overRelease ∧
      (semRelease s).2.permits = s.permits) := by
  constructor
  · intro n hn ops
    have h := semRun_inv ops (newSemaphore n) (newSemaphore_inv hn)
    exact ⟨h.1, h.2.1⟩
  · intro s hw hp
    have hge : s.permits ≥ s.maxPermits := ge_of_eq hp
    simp only [semRelease, hw, List.length_nil, releaseLoop, if_pos hge]
    constructor <;> trivial

/-- Witness for C1 at concrete inputs. -/
theorem C1_semaphore_bounds_witness :
    (0 ≤ (semRun (newSemaphore 2) [SemOp.acq 0 false, SemOp.rel]).permits ∧
      (semRun (newSemaphore 2) [SemOp.acq 0 false, SemOp.rel]).permits ≤ 2) ∧
    ((semRelease (newSemaphore 1)).1 = Except.error SemErr.overRelease ∧
      (semRelease (newSemaphore 1)).2.permits = (newSemaphore 1).permits) :=
  ⟨C1_semaphore_bounds.1 2 (by decide) [SemOp.acq 0 false, SemOp.rel],
    C1_semaphore_bounds.2 (newSemaphore 1) rfl rfl⟩

theorem semRelease_of_grant {s : SemState} {g : WaitingEntry} {w' : List WaitingEntry}
    (hrl : releaseLoop s.waiting.length s.waiting = (some g, w')) :
    semRelease s = (Except.ok (ReleaseResult.grantedTo g), { s with waiting := w' }) := by
  unfold semRelease
  rw [hrl]

/-- The (priority, sequence) of a grant result, for concrete scenarios. -/
def grantInfo (r : Except SemErr ReleaseResult) : Option (Int × Nat) :=
  match r with
  | Except.ok (ReleaseResult.grantedTo g) => some (g.priority, g.sequence)
  | _ => none

/-- Three waiters with priorities 5, 1, 3 queued in that arrival order
on an empty-permit semaphore. -/
def semScenarioPrio : SemState :=
  semRun (newSemaphore 0) [SemOp.acq 5 false, SemOp.acq 1 false, SemOp.acq 3 false]

/-- Three equal-priority waiters A, B, C queued in that arrival order
(sequences 0, 1, 2). -/
def semScenarioFifo : SemState :=
  semRun (newSemaphore 0) [SemOp.acq 0 false, SemOp.acq 0 false, SemOp.acq 0 false]

/-- C2: on every reachable semaphore state with a live waiter,
`release()` grants a non-aborted waiter that is minimal in
(priority, sequence) lexicographic order (`semCmp g e ≤ 0` against
every live waiter `e`); concretely, waiters queued with priorities
[5, 1, 3] are granted in order 1, 3, 5, and equal-priority waiters
are granted in arrival (sequence) order 0, 1, 2. -/
theorem C2_release_grants_minimal :
    (∀ (n : Int), 0 ≤ n → ∀ ops : List SemOp,
      (∃ e ∈ (semRun (newSemaphore n) ops).waiting, e.aborted = false) →
      ∃ g, (semRelease (semRun (newSemaphore n) ops)).1 =
          Except.ok (ReleaseResult.grantedTo g) ∧
        (semRelease (semRun (newSemaphore n) ops)).2.permits =
          (semRun (newSemaphore n) ops).permits ∧
        g.aborted = false ∧ g ∈ (semRun (newSemaphore n) ops).waiting ∧
        ∀ e ∈ (semRun (newSemaphore n) ops).waiting, e.aborted = false →
          semCmp g e ≤ 0) ∧
    (grantInfo (semRelease semScenarioPrio).1 = some (1, 1) ∧
      grantInfo (semRelease (semRelease semScenarioPrio).2).1 = some (3, 2) ∧
      grantInfo (semRelease (semRelease (semRelease semScenarioPrio).2).2).1 =
        some (5, 0)) ∧
    (grantInfo (semRelease semScenarioFifo).1 = some (0, 0) ∧
      grantInfo (semRelease (semRelease semScenarioFifo).2).1 = some (0, 1) ∧
      grantInfo (semRelease (semRelease (semRelease semScenarioFifo).2).2).1 =
        some (0, 2)) := by
  refine ⟨?_, ⟨by decide, by decide, by decide⟩, ⟨by decide, by decide, by decide⟩⟩
  intro n hn ops hex
  have hinv := semRun_inv ops (newSemaphore n) (newSemaphore_inv hn)
  obtain ⟨g, w', dropped, hrl, hgab, hmin, hperm, hdr, hh'⟩ :=
    releaseLoop_min (semRun (newSemaphore n) ops).waiting.length
      (semRun (newSemaphore n) ops).waiting (le_refl _) hinv.2.2.2.1 hex
  have heq := semRelease_of_grant hrl
  refine ⟨g, by rw [heq], by rw [heq], hgab, ?_, hmin⟩
  exact hperm.mem_iff.mpr (by simp)

/-- Witness for C2's general part at a concrete reachable state. -/
theorem C2_release_grants_minimal_witness :
    ∃ g, (semRelease (semRun (newSemaphore 0)
        [SemOp.acq 5 false, SemOp.acq 1 false, SemOp.acq 3 false])).1 =
      Except.ok (ReleaseResult.grantedTo g) ∧
    (semRelease (semRun (newSemaphore 0)
        [SemOp.acq 5 false, SemOp.acq 1 false, SemOp.acq 3 false])).2.permits =
      (semRun (newSemaphore 0)
        [SemOp.acq 5 false, SemOp.acq 1 false, SemOp.acq 3 false]).permits ∧
    g.aborted = false ∧
    g ∈ (semRun (newSemaphore 0)
        [SemOp.acq 5 false, SemOp.acq 1 false, SemOp.acq 3 false]).waiting ∧
    ∀ e ∈ (semRun (newSemaphore 0)
        [SemOp.acq 5 false, SemOp.acq 1 false, SemOp.acq 3 false]).waiting,
      e.aborted = false → semCmp g e ≤ 0 :=
  C2_release_grants_minimal.1 0 (by decide)
    [SemOp.acq 5 false, SemOp.acq 1 false, SemOp.acq 3 false] (by decide)

theorem markAborted_of_ne {seq : Nat} {x : WaitingEntry} (h : x.sequence ≠ seq) :
    markAborted seq x = x := by
  unfold markAborted
  rw [if_neg h]

theorem map_markAborted_id (seq : Nat) (t : List WaitingEntry)
    (h : ∀ x ∈ t, x.sequence ≠ seq) : t.map (markAborted seq) = t := by
  rw [List.map_congr_left (fun x hx => markAborted_of_ne (h x hx))]
  simp

theorem markAborted_keeps_aborted {seq : Nat} {x : WaitingEntry}
    (h : x.aborted = true) : (markAborted seq x).aborted = true := by
  unfold markAborted
  split
  · rfl
  · exact h

/-- Marking the unique live entry with sequence `seq` aborted removes
exactly that entry from the live (non-aborted) waiter list. -/
theorem filter_map_markAborted (seq : Nat) :
    ∀ (w : List WaitingEntry) (e : WaitingEntry), e ∈ w → e.sequence = seq →
      e.aborted = false → w.Pairwise (fun a b => a.sequence ≠ b.sequence) →
      (w.map (markAborted seq)).filter (fun x => !x.aborted) =
        (w.filter (fun x => !x.aborted)).erase e
  | [], e, he, _, _, _ => by simp at he
  | a :: t, e, he, hseq, hab, hp => by
    obtain ⟨hpa, hpt⟩ := List.pairwise_cons.mp hp
    by_cases ha : a.sequence = seq
    · have hea : e = a := by
        rcases List.mem_cons.mp he with h | h
        · exact h
        · exact absurd (hseq.trans ha.symm) (Ne.symm (hpa e h))
      subst hea
      have h1 : markAborted seq e = { e with aborted := true } := by
        unfold markAborted
        rw [if_pos hseq]
      have htid : t.map (markAborted seq) = t :=
        map_markAborted_id seq t fun x hx hxx =>
          hpa x hx (hseq.trans hxx.symm)
      rw [List.map_cons, h1, htid, List.filter_cons, List.filter_cons, hab]
      simp [List.erase_cons_head]
    · have het : e ∈ t := by
        rcases List.mem_cons.mp he with h | h
        · exact absurd (h ▸ hseq) ha
        · exact h
      have hne : e ≠ a := fun h => ha (h ▸ hseq)
      have hone : markAborted seq a = a := markAborted_of_ne ha
      rw [List.map_cons, hone, List.filter_cons, List.filter_cons]
      cases hx : a.aborted with
      | true =>
        simp only [hx, Bool.not_true, if_false]
        exact filter_map_markAborted seq t e het hseq hab hpt
      | false =>
        simp only [hx, Bool.not_false, if_true]
        rw [List.erase_cons_tail (by simp [Ne.symm hne]),
          filter_map_markAborted seq t e het hseq hab hpt]

/-- After a waiter with sequence `seq` has been cancelled, every entry
with that sequence (if any) is marked aborted, and the counter has
moved past `seq`, so `seq` can never be issued again. -/
def CancelledInv (seq : Nat) (s : SemState) : Prop :=
  (∀ e ∈ s.waiting, e.sequence = seq → e.aborted = true) ∧ seq < s.counter

theorem cancelledInv_step {seq : Nat} {s : SemState} (op : SemOp)
    (h : CancelledInv seq s) : CancelledInv seq (semStep s op) := by
  obtain ⟨h1, h2⟩ := h
  cases op with
  | acq priority sigAborted =>
    show CancelledInv seq (semAcquire s priority sigAborted).2
    unfold semAcquire
    by_cases hsig : sigAborted
    · rw [if_pos hsig]
      exact ⟨h1, h2⟩
    · rw [if_neg hsig]
      by_cases hp : s.permits > 0
      · rw [if_pos hp]
        exact ⟨h1, h2⟩
      · rw [if_neg hp]
        constructor
        · intro e he heq
          have hperm := heapInsert_perm semCmp s.waiting
            { priority := priority, sequence := s.counter, aborted := false }
          rcases List.mem_append.mp (hperm.mem_iff.mp he) with hm | hm
          · exact h1 e hm heq
          · simp at hm
            rw [hm] at heq
            simp at heq
            omega
        · show seq < s.counter + 1
          omega
  | macq =>
    show CancelledInv seq ((semMaybeAcquire s).getD s)
    unfold semMaybeAcquire
    by_cases hp : s.permits > 0
    · rw [if_pos hp]
      exact ⟨h1, h2⟩
    · rw [if_neg hp]
      exact ⟨h1, h2⟩
  | rel =>
    show CancelledInv seq (semRelease s).2
    unfold semRelease
    rcases hrl : releaseLoop s.waiting.length s.waiting with ⟨res, w'⟩
    have hmem : ∀ e ∈ w', e ∈ s.waiting := by
      intro e he
      apply releaseLoop_mem s.waiting.length s.waiting e
      rw [hrl]
      exact he
    cases res with
    | some e => exact ⟨fun e he heq => h1 e (hmem e he) heq, h2⟩
    | none =>
      show CancelledInv seq (if s.permits ≥ s.maxPermits
        then ((Except.error SemErr.overRelease, { s with waiting := w' }) :
          Except SemErr ReleaseResult × SemState)
        else (Except.ok ReleaseResult.incremented,
          { s with waiting := w', permits := s.permits + 1 })).2
      by_cases hge : s.permits ≥ s.maxPermits
      · rw [if_pos hge]
        exact ⟨fun e he heq => h1 e (hmem e he) heq, h2⟩
      · rw [if_neg hge]
        exact ⟨fun e he heq => h1 e (hmem e he) heq, h2⟩
  | cancel seq2 =>
    show CancelledInv seq (semCancel seq2 () s).2
    unfold semCancel
    constructor
    · intro e he heq
      obtain ⟨e0, he0, heq0⟩ := List.mem_map.mp he
      rw [← heq0] at heq ⊢
      rw [markAborted_sequence] at heq
      unfold markAborted
      split
      · rfl
      · exact h1 e0 he0 heq
    · exact h2

theorem cancelledInv_run {seq : Nat} :
    ∀ (ops : List SemOp) (s : SemState), CancelledInv seq s →
      CancelledInv seq (semRun s ops)
  | [], _, h => h
  | op :: ops, s, h => cancelledInv_run ops (semStep s op) (cancelledInv_step op h)

theorem cancelledInv_no_grant {seq : Nat} {s : SemState} (h : CancelledInv seq s) :
    ∀ g, (semRelease s).1 = Except.ok (ReleaseResult.grantedTo g) →
      g.sequence ≠ seq := by
  intro g hrel
  unfold semRelease at hrel
  rcases hrl : releaseLoop s.waiting.length s.waiting with ⟨res, w'⟩
  rw [hrl] at hrel
  cases res with
  | some e =>
    have hgr : (releaseLoop s.waiting.length s.waiting).1 = some e := by
      rw [hrl]
    obtain ⟨hmem, hab⟩ := releaseLoop_grant _ _ _ hgr
    have hge : g = e := by
      simp only at hrel
      injection hrel with hrel
      injection hrel with hrel
      exact hrel.symm
    subst hge
    intro heq
    rw [h.1 g hmem heq] at hab
    simp at hab
  | none =>
    exfalso
    revert hrel
    show (if s.permits ≥ s.maxPermits
        then ((Except.error SemErr.overRelease, { s with waiting := w' }) :
          Except SemErr ReleaseResult × SemState)
        else (Except.ok ReleaseResult.incremented,
          { s with waiting := w', permits := s.permits + 1 })).1 =
        Except.ok (ReleaseResult.grantedTo g) → False
    by_cases hge : s.permits ≥ s.maxPermits
    · rw [if_pos hge]
      intro hx
      simp at hx
    · rw [if_neg hge]
      intro hx
      simp at hx

/-- C3: cancelling a pending (suspended, non-aborted) acquire on a
reachable semaphore state rejects it with the signal's reason, leaves
the available-permit count unchanged, removes exactly that one waiter
from the live (grantable) waiter set, and no later `release()` after
any further operations ever grants a permit to that sequence number;
aborting a waiter that is no longer registered (e.g. already granted)
has no effect at all. -/
theorem C3_cancel_acquire :
    (∀ (n : Int), 0 ≤ n → ∀ (ops : List SemOp) (seq : Nat) {ρ : Type} (reason : ρ),
      ∀ e ∈ (semRun (newSemaphore n) ops).waiting, e.sequence = seq →
        e.aborted = false →
      (semCancel seq reason (semRun (newSemaphore n) ops)).1 = some reason ∧
      (semCancel seq reason (semRun (newSemaphore n) ops)).2.permits =
        (semRun (newSemaphore n) ops).permits ∧
      ((semCancel seq reason (semRun (newSemaphore n) ops)).2.waiting.filter
          (fun x => !x.aborted)) =
        (((semRun (newSemaphore n) ops).waiting.filter (fun x => !x.aborted)).erase e) ∧
      (∀ (ops2 : List SemOp) (g : WaitingEntry),
        (semRelease (semRun (semCancel seq reason
            (semRun (newSemaphore n) ops)).2 ops2)).1 =
          Except.ok (ReleaseResult.grantedTo g) → g.sequence ≠ seq)) ∧
    (∀ (s : SemState) (seq : Nat) {ρ : Type} (reason : ρ),
      (∀ e ∈ s.waiting, e.sequence ≠ seq) → semCancel seq reason s = (none, s)) := by
  constructor
  · intro n hn ops seq ρ reason e he hseq hab
    have hinv := semRun_inv ops (newSemaphore n) (newSemaphore_inv hn)
    refine ⟨?_, rfl, ?_, ?_⟩
    · show (if (semRun (newSemaphore n) ops).waiting.any
          (fun x => x.sequence == seq && !x.aborted)
        then some reason else none) = some reason
      rw [if_pos]
      apply List.any_eq_true.mpr
      exact ⟨e, he, by rw [hseq, hab]; simp⟩
    · exact filter_map_markAborted seq _ e he hseq hab hinv.2.2.2.2.2
    · intro ops2 g hgr
      have hci : CancelledInv seq (semCancel seq reason
          (semRun (newSemaphore n) ops)).2 := by
        constructor
        · intro x hx hxseq
          obtain ⟨x0, hx0, hx0e⟩ := List.mem_map.mp hx
          rw [← hx0e] at hxseq ⊢
          rw [markAborted_sequence] at hxseq
          unfold markAborted
          rw [if_pos hxseq]
        · show seq < (semRun (newSemaphore n) ops).counter
          have := hinv.2.2.2.2.1 e he
          omega
      exact cancelledInv_no_grant (cancelledInv_run ops2 _ hci) g hgr
  · intro s seq ρ reason hno
    unfold semCancel
    have h1 : s.waiting.any (fun x => x.sequence == seq && !x.aborted) = false := by
      rw [List.any_eq_false]
      intro x hx
      simp [hno x hx]
    rw [h1]
    simp only [Bool.false_eq_true, if_false]
    rw [map_markAborted_id seq s.waiting hno]

/-- Witness for C3 at a concrete cancelled waiter. -/
theorem C3_cancel_acquire_witness :
    ((semCancel 0 "cancel reason" (semRun (newSemaphore 0) [SemOp.acq 0 false])).1 =
        some "cancel reason" ∧
      (semCancel 0 "cancel reason" (semRun (newSemaphore 0) [SemOp.acq 0 false])).2.permits =
        (semRun (newSemaphore 0) [SemOp.acq 0 false]).permits ∧
      ((semCancel 0 "cancel reason" (semRun (newSemaphore 0)
          [SemOp.acq 0 false])).2.waiting.filter (fun x => !x.aborted)) =
        (((semRun (newSemaphore 0) [SemOp.acq 0 false]).waiting.filter
          (fun x => !x.aborted)).erase
            { priority := 0, sequence := 0, aborted := false }) ∧
      (∀ (ops2 : List SemOp) (g : WaitingEntry),
        (semRelease (semRun (semCancel 0 "cancel reason"
            (semRun (newSemaphore 0) [SemOp.acq 0 false])).2 ops2)).1 =
          Except.ok (ReleaseResult.grantedTo g) → g.sequence ≠ 0)) ∧
    (semCancel 7 "late abort" (newSemaphore 3) = (none, newSemaphore 3)) :=
  ⟨C3_cancel_acquire.1 0 (by decide) [SemOp.acq 0 false] 0 "cancel reason"
      { priority := 0, sequence := 0, aborted := false } (by decide) rfl rfl,
    C3_cancel_acquire.2 (newSemaphore 3) 7 "late abort" (by
      intro e he
      simp [newSemaphore] at he)⟩

/-! ### Queue (src/unnamed/part_013, class `DefaultQueue`)

`#buffer` is a JS array whose empty slots hold `undefined`, embedded as
`List (Option T)`.  `capacity` is a JS number that may be `Infinity`,
embedded as `Option Nat` with `none` for `Infinity` (the source throws
on negative capacity at construction, so reachable capacities are
naturals).  The two waiter `Set`s iterate in insertion order, so they
are embedded as FIFO lists; a waiter's `resolve`/`reject` callbacks
are replaced by its unique id, and resolutions are reported as events. -/

structure EnqueueWaiter (T : Type) where
  id : Nat
  item : T
deriving Repr, DecidableEq

structure QueueState (T : Type) where
  buffer : List (Option T)
  head : Nat
  tail : Nat
  /-- `#size`: the raw buffered-item count (the `size` getter masks it
  for rendezvous queues). -/
  internalSize : Nat
  capacity : Option Nat
  waitingEnqueue : List (EnqueueWaiter T)
  waitingDequeue : List Nat
  closed : Bool
  nextWaiterId : Nat
deriving Repr, DecidableEq

/-- `newQueue(capacity)` / the `DefaultQueue` constructor. -/
def newQueue (T : Type) (capacity : Option Nat) : QueueState T :=
  { buffer := List.replicate (match capacity with | none => 16 | some c => c) none
    head := 0, tail := 0, internalSize := 0, capacity := capacity
    waitingEnqueue := [], waitingDequeue := [], closed := false, nextWaiterId := 0 }

/-- `#expandBuffer()`: double the buffer, re-linearizing from `head`
to index 0 (only ever called for `Infinity` capacity). -/
def expandBuffer (s : QueueState T) : QueueState T :=
  let oldLen := s.buffer.length
  { s with
    buffer := (List.range (oldLen * 2)).map (fun i =>
      if i < s.internalSize then s.buffer.getD ((s.head + i) % oldLen) none else none)
    head := 0
    tail := s.internalSize }

/-- `#internalEnqueue(item)`. -/
def internalEnqueue (x : T) (s : QueueState T) : QueueState T :=
  let s1 := if s.internalSize = s.buffer.length ∧ s.capacity = none then expandBuffer s
    else s
  { s1 with
    buffer := s1.buffer.set s1.tail (some x)
    tail := (s1.tail + 1) % s1.buffer.length
    internalSize := s1.internalSize + 1 }

/-- `internalDequeue()`: returns the slot content (`undefined`-able,
hence `Option`) and clears the slot. -/
def internalDequeue (s : QueueState T) : Option T × QueueState T :=
  (s.buffer.getD s.head none,
    { s with
      buffer := s.buffer.set s.head none
      head := (s.head + 1) % s.buffer.length
      internalSize := s.internalSize - 1 })

inductive QEvent (T : Type) where
  /-- A pending dequeue was resolved with this item. -/
  | resolvedDequeuer (id : Nat) (item : Option T)
  /-- A pending enqueue was resolved. -/
  | resolvedEnqueuer (id : Nat)
  /-- A pending enqueue was rejected with `QueueClosedError`. -/
  | rejectedEnqueuer (id : Nat)
  /-- A pending dequeue was rejected with `QueueClosedError`. -/
  | rejectedDequeuer (id : Nat)
deriving Repr, DecidableEq

/-- `size < capacity` on JS numbers, where capacity may be `Infinity`. -/
def sizeLtCap (n : Nat) : Option Nat → Bool
  | none => true
  | some c => n < c

/-- The `while (waitingDequeue.size > 0 && size > 0)` loop of
`maybeEnqueue`.  Each iteration dequeues one buffered item, so
`internalSize` bounds the iterations. -/
def drainDequeuers : Nat → QueueState T → List (QEvent T) × QueueState T
  | 0, s => ([], s)
  | fuel + 1, s =>
    match s.waitingDequeue with
    | [] => ([], s)
    | id :: rest =>
      if s.internalSize > 0 then
        let r := internalDequeue s
        let r2 := drainDequeuers fuel { r.2 with waitingDequeue := rest }
        (QEvent.resolvedDequeuer id r.1 :: r2.1, r2.2)
      else ([], s)

/-- The `while (waitingEnqueue.size > 0 && size < capacity)` loop of
`maybeDequeue`.  Each iteration removes one waiter, so the waiter-list
length bounds the iterations. -/
def drainEnqueuers : Nat → QueueState T → List (QEvent T) × QueueState T
  | 0, s => ([], s)
  | fuel + 1, s =>
    match s.waitingEnqueue with
    | [] => ([], s)
    | w :: rest =>
      if sizeLtCap s.internalSize s.capacity then
        let s1 := internalEnqueue w.item s
        let r2 := drainEnqueuers fuel { s1 with waitingEnqueue := rest }
        (QEvent.resolvedEnqueuer w.id :: r2.1, r2.2)
      else ([], s)

/-- `maybeEnqueue(item)`. -/
def maybeEnqueue (x : T) (s : QueueState T) :
    Bool × List (QEvent T) × QueueState T :=
  if s.closed then (false, [], s)
  else if s.capacity = some 0 then
    match s.waitingDequeue with
    | [] => (false, [], s)
    | id :: rest =>
      (true, [QEvent.resolvedDequeuer id (some x)], { s with waitingDequeue := rest })
  else if ¬ sizeLtCap s.internalSize s.capacity then (false, [], s)
  else
    let s1 := internalEnqueue x s
    let r := drainDequeuers s1.internalSize s1
    (true, r.1, r.2)

/-- `maybeDequeue()`.  `(false, none, …)` embeds `[undefined, false]`;
`(true, it, …)` embeds `[item, true]` with the slot content. -/
def maybeDequeue (s : QueueState T) :
    Bool × Option T × List (QEvent T) × QueueState T :=
  if s.capacity = some 0 then
    match s.waitingEnqueue with
    | [] => (false, none, [], s)
    | w :: rest =>
      (true, some w.item, [QEvent.resolvedEnqueuer w.id], { s with waitingEnqueue := rest })
  else if s.internalSize = 0 then (false, none, [], s)
  else
    let r := internalDequeue s
    let r2 := drainEnqueuers r.2.waitingEnqueue.length r.2
    (true, r.1, r2.1, r2.2)

inductive QErr where
  | cancelled
  | queueClosed
deriving Repr, DecidableEq

/-- `enqueue(item, options)`: `Except.ok none` means it completed
synchronously, `Except.ok (some id)` means a waiter was registered. -/
def enqueue (x : T) (sigAborted : Bool) (s : QueueState T) :
    Except QErr (Option Nat) × List (QEvent T) × QueueState T :=
  if sigAborted then (.error .cancelled, [], s)
  else if s.closed then (.error .queueClosed, [], s)
  else
    match maybeEnqueue x s with
    | (true, evs, s1) => (.ok none, evs, s1)
    | (false, _, _) =>
      (.ok (some s.nextWaiterId), [],
        { s with
          waitingEnqueue := s.waitingEnqueue ++ [⟨s.nextWaiterId, x⟩]
          nextWaiterId := s.nextWaiterId + 1 })

inductive DeqOutcome (T : Type) where
  /-- An item was returned synchronously (the slot content). -/
  | got (x : Option T)
  /-- A dequeue waiter with this id was registered. -/
  | suspended (id : Nat)
deriving Repr, DecidableEq

/-- `dequeue(options)`. -/
def dequeue (sigAborted : Bool) (s : QueueState T) :
    Except QErr (DeqOutcome T) × List (QEvent T) × QueueState T :=
  if sigAborted then (.error .cancelled, [], s)
  else
    match maybeDequeue s with
    | (true, it, evs, s1) => (.ok (.got it), evs, s1)
    | (false, _, _, _) =>
      if s.closed ∧ s.internalSize = 0 ∧ s.waitingEnqueue.length = 0 then
        (.error .queueClosed, [], s)
      else
        (.ok (.suspended s.nextWaiterId), [],
          { s with
            waitingDequeue := s.waitingDequeue ++ [s.nextWaiterId]
            nextWaiterId := s.nextWaiterId + 1 })

/-- The `size` getter: always 0 for a rendezvous queue. -/
def qsize (s : QueueState T) : Nat :=
  if s.capacity = some 0 then 0 else s.internalSize

/-- `toArray()`, kept at the slot (`Option`) level: the source pushes
`buffer[(head + i) % buffer.length]!` for `i < size`. -/
def toArray (s : QueueState T) : List (Option T) :=
  if s.capacity = some 0 ∨ s.internalSize = 0 then []
  else (List.range s.internalSize).map
    (fun i => s.buffer.getD ((s.head + i) % s.buffer.length) none)

/-- `close()`. -/
def close (s : QueueState T) : List (QEvent T) × QueueState T :=
  if s.closed then ([], s)
  else
    (s.waitingEnqueue.map (fun w => QEvent.rejectedEnqueuer w.id) ++
        (if s.internalSize = 0 then s.waitingDequeue.map QEvent.rejectedDequeuer else []),
      { s with
        closed := true
        waitingEnqueue := []
        waitingDequeue := if s.internalSize = 0 then [] else s.waitingDequeue })

/-- The `onAbort` listener of a pending enqueue: drop the waiter. -/
def cancelEnqueue (id : Nat) (s : QueueState T) : QueueState T :=
  { s with waitingEnqueue := s.waitingEnqueue.filter (fun w => w.id != id) }

/-- The `onAbort` listener of a pending dequeue: drop the waiter. -/
def cancelDequeue (id : Nat) (s : QueueState T) : QueueState T :=
  { s with waitingDequeue := s.waitingDequeue.filter (fun i => i != id) }

/-- One public operation on a queue. -/
inductive QOp (T : Type) where
  | enq (x : T) (sigAborted : Bool)
  | deq (sigAborted : Bool)
  | menq (x : T)
  | mdeq
  | closeQ
  | cancelEnq (id : Nat)
  | cancelDeq (id : Nat)

def qStep (s : QueueState T) : QOp T → QueueState T
  | .enq x sigAborted => (enqueue x sigAborted s).2.2
  | .deq sigAborted => (dequeue sigAborted s).2.2
  | .menq x => (maybeEnqueue x s).2.2
  | .mdeq => (maybeDequeue s).2.2.2
  | .closeQ => (close s).2
  | .cancelEnq id => cancelEnqueue id s
  | .cancelDeq id => cancelDequeue id s

def qRun (s : QueueState T) (ops : List (QOp T)) : QueueState T :=
  ops.foldl qStep s

theorem mod_add_inj {c a i j : Nat} (hi : i < c) (hj : j < c)
    (h : (a + i) % c = (a + j) % c) : i = j := by
  have h1 : i ≡ j [MOD c] := Nat.ModEq.add_left_cancel' a h
  have h2 : i % c = j % c := h1
  rwa [Nat.mod_eq_of_lt hi, Nat.mod_eq_of_lt hj] at h2

/-- Circular-buffer well-formedness of a bounded queue with no
pending waiters in the way: fixed buffer length `c = capacity`,
`head` in range, `tail` determined by `head + size` mod `c`. -/
def BoundedInv (c : Nat) (s : QueueState T) : Prop :=
  s.capacity = some c ∧ 0 < c ∧ s.buffer.length = c ∧ s.internalSize ≤ c ∧
  s.head < c ∧ s.tail = (s.head + s.internalSize) % c

theorem newQueue_boundedInv (T : Type) {c : Nat} (hc : 0 < c) :
    BoundedInv c (newQueue T (some c)) := by
  refine ⟨rfl, hc, by simp [newQueue], by simp [newQueue], hc, by simp [newQueue]⟩

theorem toArray_eq_of_bounded {T : Type} {c : Nat} {s : QueueState T}
    (hinv : BoundedInv c s) :
    toArray s = (List.range s.internalSize).map
      (fun i => s.buffer.getD ((s.head + i) % s.buffer.length) none) := by
  obtain ⟨hcap, hc0, _, _, _, _⟩ := hinv
  unfold toArray
  by_cases hz : s.internalSize = 0
  · rw [if_pos (Or.inr hz), hz]
    simp
  · rw [if_neg]
    intro hor
    rcases hor with h | h
    · rw [hcap] at h
      injection h with h
      omega
    · exact hz h

theorem drainDequeuers_nil {T : Type} (fuel : Nat) (s : QueueState T)
    (h : s.waitingDequeue = []) : drainDequeuers fuel s = ([], s) := by
  cases fuel with
  | zero => rfl
  | succ fuel =>
    unfold drainDequeuers
    rw [h]

theorem drainEnqueuers_nil {T : Type} (fuel : Nat) (s : QueueState T)
    (h : s.waitingEnqueue = []) : drainEnqueuers fuel s = ([], s) := by
  cases fuel with
  | zero => rfl
  | succ fuel =>
    unfold drainEnqueuers
    rw [h]

theorem maybeEnqueue_sync {T : Type} {c : Nat} {s : QueueState T} (x : T)
    (hinv : BoundedInv c s) (hcl : s.closed = false) (hwd : s.waitingDequeue = [])
    (hlt : s.internalSize < c) :
    maybeEnqueue x s = (true, [],
      { s with
        buffer := s.buffer.set s.tail (some x)
        tail := (s.tail + 1) % s.buffer.length
        internalSize := s.internalSize + 1 }) := by
  obtain ⟨hcap, hc0, hblen, hsc, hhc, htl⟩ := hinv
  unfold maybeEnqueue
  rw [hcl]
  simp only [Bool.false_eq_true, if_false]
  rw [if_neg (by rw [hcap]; intro h; injection h with h; omega)]
  rw [if_neg (by
    rw [hcap]
    unfold sizeLtCap
    simp only [decide_eq_true_eq, not_not]
    omega)]
  have hexp : ¬(s.internalSize = s.buffer.length ∧ s.capacity = none) := by
    rw [hcap]
    intro h
    exact Option.noConfusion h.2
  unfold internalEnqueue
  rw [if_neg hexp]
  dsimp only
  rw [drainDequeuers_nil _ _ (by exact hwd)]
  simp [hcl]

theorem maybeDequeue_sync {T : Type} {c : Nat} {s : QueueState T}
    (hinv : BoundedInv c s) (hwe : s.waitingEnqueue = [])
    (hpos : 0 < s.internalSize) :
    maybeDequeue s = (true, s.buffer.getD s.head none, [],
      { s with
        buffer := s.buffer.set s.head none
        head := (s.head + 1) % s.buffer.length
        internalSize := s.internalSize - 1 }) := by
  obtain ⟨hcap, hc0, hblen, hsc, hhc, htl⟩ := hinv
  unfold maybeDequeue
  rw [if_neg (by rw [hcap]; intro h; injection h with h; omega)]
  rw [if_neg (by omega)]
  unfold internalDequeue
  dsimp only
  rw [drainEnqueuers_nil _ _ (by exact hwe)]

/-- FIFO refinement, enqueue direction: on a well-formed bounded queue
that is open, not full, and has no pending dequeuers, `enqueue`
completes synchronously and appends the item to the `toArray`
abstraction. -/
theorem enqueue_fifo {T : Type} {c : Nat} {s : QueueState T} (x : T)
    (hinv : BoundedInv c s) (hcl : s.closed = false) (hwd : s.waitingDequeue = [])
    (hlt : s.internalSize < c) :
    ∃ s1, enqueue x false s = (Except.ok none, [], s1) ∧
      toArray s1 = toArray s ++ [some x] ∧ BoundedInv c s1 ∧
      s1.internalSize = s.internalSize + 1 ∧ s1.closed = s.closed ∧
      s1.waitingDequeue = s.waitingDequeue ∧ s1.waitingEnqueue = s.waitingEnqueue := by
  obtain ⟨hcap, hc0, hblen, hsc, hhc, htl⟩ := hinv
  have hme := maybeEnqueue_sync x ⟨hcap, hc0, hblen, hsc, hhc, htl⟩ hcl hwd hlt
  have hinv1 : BoundedInv c
      { s with
        buffer := s.buffer.set s.tail (some x)
        tail := (s.tail + 1) % s.buffer.length
        internalSize := s.internalSize + 1 } := by
    unfold BoundedInv
    dsimp only
    refine ⟨hcap, hc0, by simp [hblen], by omega, hhc, ?_⟩
    rw [hblen, htl, Nat.mod_add_mod]
    congr 1
  refine ⟨{ s with
      buffer := s.buffer.set s.tail (some x)
      tail := (s.tail + 1) % s.buffer.length
      internalSize := s.internalSize + 1 }, ?_, ?_, hinv1, rfl, rfl, rfl, rfl⟩
  · unfold enqueue
    simp only [hcl, Bool.false_eq_true, if_false]
    rw [hme, hcl]
  · -- toArray grows by one at the tail slot
    rw [toArray_eq_of_bounded hinv1,
      toArray_eq_of_bounded ⟨hcap, hc0, hblen, hsc, hhc, htl⟩]
    dsimp only
    rw [List.range_succ, List.map_append, List.map_singleton]
    congr 1
    · apply List.map_congr_left
      intro i hi
      have hmemi : i < s.internalSize := List.mem_range.mp hi
      rw [List.length_set]
      have hne : s.tail ≠ (s.head + i) % s.buffer.length := by
        rw [htl, hblen]
        intro h
        have := mod_add_inj (a := s.head) (c := c) (by omega) (by omega) h.symm
        omega
      rw [List.getD_eq_getElem?_getD, List.getElem?_set_ne hne,
        ← List.getD_eq_getElem?_getD]
    · -- the new element lands at the tail slot
      rw [List.length_set, hblen, ← htl]
      have hts : s.tail < s.buffer.length := by
        rw [hblen, htl]
        exact Nat.mod_lt _ hc0
      rw [List.getD_eq_getElem?_getD, List.getElem?_set_self (by omega)]
      rfl

/-- FIFO refinement, dequeue direction: on a well-formed bounded queue
that is non-empty and has no pending enqueuers, `dequeue` returns the
head of the `toArray` abstraction synchronously and the abstraction
loses its head. -/
theorem dequeue_fifo {T : Type} {c : Nat} {s : QueueState T}
    (hinv : BoundedInv c s) (hwe : s.waitingEnqueue = [])
    (hpos : 0 < s.internalSize) :
    ∃ it s1, dequeue false s = (Except.ok (DeqOutcome.got it), [], s1) ∧
      toArray s = it :: toArray s1 ∧ BoundedInv c s1 ∧
      s1.internalSize = s.internalSize - 1 ∧ s1.closed = s.closed := by
  obtain ⟨hcap, hc0, hblen, hsc, hhc, htl⟩ := hinv
  have hmd := maybeDequeue_sync ⟨hcap, hc0, hblen, hsc, hhc, htl⟩ hwe hpos
  have hinv1 : BoundedInv c
      { s with
        buffer := s.buffer.set s.head none
        head := (s.head + 1) % s.buffer.length
        internalSize := s.internalSize - 1 } := by
    unfold BoundedInv
    dsimp only
    refine ⟨hcap, hc0, by simp [hblen], by omega, ?_, ?_⟩
    · rw [hblen]
      exact Nat.mod_lt _ hc0
    · rw [hblen, htl, Nat.mod_add_mod]
      congr 1
      omega
  refine ⟨s.buffer.getD s.head none, { s with
      buffer := s.buffer.set s.head none
      head := (s.head + 1) % s.buffer.length
      internalSize := s.internalSize - 1 }, ?_, ?_, hinv1, rfl, rfl⟩
  · unfold dequeue
    simp only [Bool.false_eq_true, if_false]
    rw [hmd]
  · rw [toArray_eq_of_bounded hinv1,
      toArray_eq_of_bounded ⟨hcap, hc0, hblen, hsc, hhc, htl⟩]
    dsimp only
    have hsz : s.internalSize = (s.internalSize - 1) + 1 := by omega
    rw [hsz, List.range_succ_eq_map, List.map_cons]
    congr 1
    · rw [Nat.add_zero, Nat.mod_eq_of_lt (by omega)]
    · rw [List.map_map]
      apply List.map_congr_left
      intro i hi
      have hmemi : i < s.internalSize - 1 := List.mem_range.mp hi
      show s.buffer.getD ((s.head + Nat.succ i) % s.buffer.length) none =
        (s.buffer.set s.head none).getD
          (((s.head + 1) % s.buffer.length + i) %
            (s.buffer.set s.head none).length) none
      rw [List.length_set, Nat.mod_add_mod, hblen]
      have harg : s.head + Nat.succ i = s.head + 1 + i := by omega
      rw [harg]
      have hne : s.head ≠ (s.head + 1 + i) % c := by
        intro h
        have h0 : (s.head + 0) % c = (s.head + (1 + i)) % c := by
          rw [Nat.add_zero, Nat.mod_eq_of_lt hhc, ← Nat.add_assoc]
          exact h
        have := mod_add_inj (a := s.head) (c := c) (by omega) (by omega) h0
        omega
      rw [List.getD_eq_getElem?_getD (l := s.buffer.set s.head none),
        List.getElem?_set_ne hne, ← List.getD_eq_getElem?_getD]

/-- Bounded queue with capacity 5, after enqueueing 1, 2, 3. -/
def q4a : QueueState Nat :=
  qRun (newQueue Nat (some 5)) [QOp.enq 1 false, QOp.enq 2 false, QOp.enq 3 false]

/-- Bounded queue with capacity 5 after enqueue ×5, dequeue ×2,
enqueue ×2: the internal indices have wrapped around. -/
def q4b : QueueState Nat :=
  qRun (newQueue Nat (some 5))
    [QOp.enq 1 false, QOp.enq 2 false, QOp.enq 3 false, QOp.enq 4 false, QOp.enq 5 false,
      QOp.deq false, QOp.deq false, QOp.enq 6 false, QOp.enq 7 false]

/-- C4: a bounded queue is FIFO — `enqueue` appends to the `toArray`
abstraction and `dequeue` removes its head — so items leave in exactly
arrival order; `toArray` stays a FIFO snapshot across circular-buffer
wraparound (capacity-5 scenario: enqueue 5, dequeue 2, enqueue 2 more
leaves exactly the five live items in FIFO order). -/
theorem C4_queue_fifo_order :
    (∀ (T : Type) (c : Nat) (s : QueueState T) (x : T), BoundedInv c s →
      s.closed = false → s.waitingDequeue = [] → s.internalSize < c →
      ∃ s1, enqueue x false s = (Except.ok none, [], s1) ∧
        toArray s1 = toArray s ++ [some x] ∧ BoundedInv c s1) ∧
    (∀ (T : Type) (c : Nat) (s : QueueState T), BoundedInv c s →
      s.waitingEnqueue = [] → 0 < s.internalSize →
      ∃ it s1, dequeue false s = (Except.ok (DeqOutcome.got it), [], s1) ∧
        toArray s = it :: toArray s1 ∧ BoundedInv c s1) ∧
    (toArray q4a = [some 1, some 2, some 3] ∧
      (dequeue false q4a).1 = Except.ok (DeqOutcome.got (some 1)) ∧
      (dequeue false (dequeue false q4a).2.2).1 =
        Except.ok (DeqOutcome.got (some 2)) ∧
      (dequeue false (dequeue false (dequeue false q4a).2.2).2.2).1 =
        Except.ok (DeqOutcome.got (some 3))) ∧
    toArray q4b = [some 3, some 4, some 5, some 6, some 7] := by
  refine ⟨?_, ?_, ⟨by decide, by decide, by decide, by decide⟩, by decide⟩
  · intro T c s x hinv hcl hwd hlt
    obtain ⟨s1, h1, h2, h3, _⟩ := enqueue_fifo x hinv hcl hwd hlt
    exact ⟨s1, h1, h2, h3⟩
  · intro T c s hinv hwe hpos
    obtain ⟨it, s1, h1, h2, h3, _⟩ := dequeue_fifo hinv hwe hpos
    exact ⟨it, s1, h1, h2, h3⟩

/-- Witness for C4 on a concrete bounded queue. -/
theorem C4_queue_fifo_order_witness :
    (∃ s1, enqueue 9 false q4a = (Except.ok none, [], s1) ∧
      toArray s1 = toArray q4a ++ [some 9] ∧ BoundedInv 5 s1) ∧
    (∃ it s1, dequeue false q4a = (Except.ok (DeqOutcome.got it), [], s1) ∧
      toArray q4a = it :: toArray s1 ∧ BoundedInv 5 s1) :=
  ⟨C4_queue_fifo_order.1 Nat 5 q4a 9 (by unfold BoundedInv; decide) (by decide)
      (by decide) (by decide),
    C4_queue_fifo_order.2.1 Nat 5 q4a (by unfold BoundedInv; decide) (by decide)
      (by decide)⟩

theorem maybeDequeue_fail {T : Type} {s : QueueState T}
    (hwe : s.waitingEnqueue = []) (hsz : s.internalSize = 0) :
    maybeDequeue s = (false, none, [], s) := by
  unfold maybeDequeue
  by_cases hc : s.capacity = some 0
  · rw [if_pos hc, hwe]
  · rw [if_neg hc, if_pos hsz]

/-- Queue() (unbounded), enqueue 1, enqueue 2, close(). -/
def q5 : QueueState Nat :=
  qRun (newQueue Nat none) [QOp.enq 1 false, QOp.enq 2 false, QOp.closeQ]

/-- C5: after `close()`, every enqueue fails immediately with
`QueueClosedError` with no state change; dequeue still succeeds in
FIFO order while items remain buffered; once closed, empty and without
pending enqueuers, dequeue fails immediately with `QueueClosedError`;
the enqueue-1-2/close/dequeue-dequeue-dequeue scenario returns 1, 2,
then the error. -/
theorem C5_queue_close_semantics :
    (∀ (T : Type) (s : QueueState T) (x : T), s.closed = true →
      enqueue x false s = (Except.error QErr.queueClosed, [], s)) ∧
    (∀ (T : Type) (c : Nat) (s : QueueState T), BoundedInv c s → s.closed = true →
      s.waitingEnqueue = [] → 0 < s.internalSize →
      ∃ it s1, dequeue false s = (Except.ok (DeqOutcome.got it), [], s1) ∧
        toArray s = it :: toArray s1 ∧ s1.closed = true) ∧
    (∀ (T : Type) (s : QueueState T), s.closed = true → s.internalSize = 0 →
      s.waitingEnqueue = [] →
      dequeue false s = (Except.error QErr.queueClosed, [], s)) ∧
    (q5.closed = true ∧
      (dequeue false q5).1 = Except.ok (DeqOutcome.got (some 1)) ∧
      (dequeue false (dequeue false q5).2.2).1 =
        Except.ok (DeqOutcome.got (some 2)) ∧
      (dequeue false (dequeue false (dequeue false q5).2.2).2.2).1 =
        Except.error QErr.queueClosed) := by
  refine ⟨?_, ?_, ?_, by decide, by decide, by decide, by decide⟩
  · intro T s x hcl
    unfold enqueue
    rw [hcl]
    rfl
  · intro T c s hinv hcl hwe hpos
    obtain ⟨it, s1, h1, h2, _, _, h5⟩ := dequeue_fifo hinv hwe hpos
    exact ⟨it, s1, h1, h2, by rw [h5, hcl]⟩
  · intro T s hcl hsz hwe
    unfold dequeue
    simp only [Bool.false_eq_true, if_false]
    rw [maybeDequeue_fail hwe hsz]
    rw [if_pos ⟨hcl, hsz, by rw [hwe]; rfl⟩]

/-- Witness for C5 at concrete closed queues. -/
theorem C5_queue_close_semantics_witness :
    (enqueue 3 false q5 = (Except.error QErr.queueClosed, [], q5)) ∧
    (∃ it s1, dequeue false
        (qRun (newQueue Nat (some 5)) [QOp.enq 1 false, QOp.enq 2 false, QOp.closeQ]) =
        (Except.ok (DeqOutcome.got it), [], s1) ∧
      toArray (qRun (newQueue Nat (some 5)) [QOp.enq 1 false, QOp.enq 2 false, QOp.closeQ]) =
        it :: toArray s1 ∧ s1.closed = true) ∧
    (dequeue false (qRun (newQueue Nat (some 2)) [QOp.closeQ]) =
      (Except.error QErr.queueClosed, [], qRun (newQueue Nat (some 2)) [QOp.closeQ])) :=
  ⟨C5_queue_close_semantics.1 Nat q5 3 (by decide),
    C5_queue_close_semantics.2.1 Nat 5
      (qRun (newQueue Nat (some 5)) [QOp.enq 1 false, QOp.enq 2 false, QOp.closeQ])
      (by unfold BoundedInv; decide) (by decide) (by decide) (by decide),
    C5_queue_close_semantics.2.2.1 Nat (qRun (newQueue Nat (some 2)) [QOp.closeQ])
      (by decide) (by decide) (by decide)⟩

/-- Internal emptiness of a rendezvous queue: nothing is ever buffered. -/
def RendezvousInv (s : QueueState T) : Prop :=
  s.capacity = some 0 ∧ s.internalSize = 0 ∧ s.buffer = []

theorem rendezvousInv_maybeEnqueue {T : Type} {s : QueueState T} (x : T)
    (h : RendezvousInv s) : RendezvousInv (maybeEnqueue x s).2.2 := by
  obtain ⟨h1, h2, h3⟩ := h
  unfold maybeEnqueue
  by_cases hcl : s.closed
  · rw [if_pos hcl]
    exact ⟨h1, h2, h3⟩
  · rw [if_neg hcl, if_pos h1]
    cases hwd : s.waitingDequeue with
    | nil => exact ⟨h1, h2, h3⟩
    | cons id rest => exact ⟨h1, h2, h3⟩

theorem rendezvousInv_maybeDequeue {T : Type} {s : QueueState T}
    (h : RendezvousInv s) : RendezvousInv (maybeDequeue s).2.2.2 := by
  obtain ⟨h1, h2, h3⟩ := h
  unfold maybeDequeue
  rw [if_pos h1]
  cases hwe : s.waitingEnqueue with
  | nil => exact ⟨h1, h2, h3⟩
  | cons w rest => exact ⟨h1, h2, h3⟩

theorem rendezvousInv_step {T : Type} {s : QueueState T} (op : QOp T)
    (h : RendezvousInv s) : RendezvousInv (qStep s op) := by
  obtain ⟨h1, h2, h3⟩ := h
  cases op with
  | enq x sigAborted =>
    show RendezvousInv (enqueue x sigAborted s).2.2
    unfold enqueue
    by_cases hsig : sigAborted
    · rw [if_pos hsig]
      exact ⟨h1, h2, h3⟩
    · rw [if_neg hsig]
      by_cases hcl : s.closed
      · rw [if_pos hcl]
        exact ⟨h1, h2, h3⟩
      · rw [if_neg hcl]
        rcases hme : maybeEnqueue x s with ⟨ok, evs, s1⟩
        have hs1 : RendezvousInv s1 := by
          have := rendezvousInv_maybeEnqueue x ⟨h1, h2, h3⟩
          rw [hme] at this
          exact this
        cases ok with
        | true => exact hs1
        | false => exact ⟨h1, h2, h3⟩
  | deq sigAborted =>
    show RendezvousInv (dequeue sigAborted s).2.2
    unfold dequeue
    by_cases hsig : sigAborted
    · rw [if_pos hsig]
      exact ⟨h1, h2, h3⟩
    · rw [if_neg hsig]
      rcases hmd : maybeDequeue s with ⟨ok, it, evs, s1⟩
      have hs1 : RendezvousInv s1 := by
        have := rendezvousInv_maybeDequeue ⟨h1, h2, h3⟩
        rw [hmd] at this
        exact this
      cases ok with
      | true => exact hs1
      | false =>
        dsimp only
        split
        · exact ⟨h1, h2, h3⟩
        · exact ⟨h1, h2, h3⟩
  | menq x =>
    exact rendezvousInv_maybeEnqueue x ⟨h1, h2, h3⟩
  | mdeq =>
    exact rendezvousInv_maybeDequeue ⟨h1, h2, h3⟩
  | closeQ =>
    show RendezvousInv (close s).2
    unfold close
    by_cases hcl : s.closed
    · rw [if_pos hcl]
      exact ⟨h1, h2, h3⟩
    · rw [if_neg hcl]
      exact ⟨h1, h2, h3⟩
  | cancelEnq id => exact ⟨h1, h2, h3⟩
  | cancelDeq id => exact ⟨h1, h2, h3⟩

theorem rendezvousInv_run {T : Type} :
    ∀ (ops : List (QOp T)) (s : QueueState T), RendezvousInv s →
      RendezvousInv (qRun s ops)
  | [], _, h => h
  | op :: ops, s, h => rendezvousInv_run ops (qStep s op) (rendezvousInv_step op h)

/-- C6: a zero-capacity (rendezvous) queue reports size 0 always; on
every reachable state the internal buffer is empty (no item is ever
stored); and the dequeue-first-then-enqueue scenario hands "x"
directly to the waiting dequeuer with size 0 throughout. -/
theorem C6_rendezvous_queue :
    (∀ (T : Type) (s : QueueState T), s.capacity = some 0 → qsize s = 0) ∧
    (∀ (T : Type) (ops : List (QOp T)),
      (qRun (newQueue T (some 0)) ops).internalSize = 0 ∧
      (qRun (newQueue T (some 0)) ops).buffer = [] ∧
      qsize (qRun (newQueue T (some 0)) ops) = 0) ∧
    ((dequeue false (newQueue String (some 0))).1 =
        Except.ok (DeqOutcome.suspended 0) ∧
      qsize (dequeue false (newQueue String (some 0))).2.2 = 0 ∧
      (enqueue "x" false (dequeue false (newQueue String (some 0))).2.2).1 =
        Except.ok none ∧
      (enqueue "x" false (dequeue false (newQueue String (some 0))).2.2).2.1 =
        [QEvent.resolvedDequeuer 0 (some "x")] ∧
      qsize (enqueue "x" false (dequeue false (newQueue String (some 0))).2.2).2.2 = 0) := by
  refine ⟨?_, ?_, by decide, by decide, by decide, by decide, by decide⟩
  · intro T s h
    unfold qsize
    rw [if_pos h]
  · intro T ops
    have h := rendezvousInv_run ops (newQueue T (some 0)) ⟨rfl, rfl, rfl⟩
    refine ⟨h.2.1, h.2.2, ?_⟩
    unfold qsize
    rw [if_pos h.1]

/-- Witness for C6's conditional part. -/
theorem C6_rendezvous_queue_witness :
    qsize (newQueue Nat (some 0)) = 0 :=
  C6_rendezvous_queue.1 Nat (newQueue Nat (some 0)) rfl

/-- C8: when the derived cancellation signal is already aborted at call
time, semaphore `acquire`, queue `enqueue` and queue `dequeue` all fail
with the cancellation error before any state mutation: no waiter is
registered, no permit taken, no item moved — the returned state is the
input state. -/
theorem C8_already_aborted_no_mutation :
    (∀ (s : SemState) (priority : Int),
      semAcquire s priority true = (Except.error SemErr.cancelled, s)) ∧
    (∀ (T : Type) (x : T) (s : QueueState T),
      enqueue x true s = (Except.error QErr.cancelled, [], s)) ∧
    (∀ (T : Type) (s : QueueState T),
      dequeue true s = (Except.error QErr.cancelled, [], s)) :=
  ⟨fun _ _ => rfl, fun _ _ _ => rfl, fun _ _ => rfl⟩

/-! ### Stream pipeline (src/stream.ts, `mapBatchIterable`)

The driver loop of `DefaultStream.mapBatch`, embedded for pure batch
functions, no `batchDelay`, no cancellation signal, and at most one
in-flight batch (`pendingBatches.size ≤ 1`, which the loop guarantees
whenever `concurrency ≤ 1`; the race between promises is then
deterministic because at most one candidate is ever in `racePromises`).
The upstream iterator over a finite list yields its elements then
`done`.  The loop itself becomes a fuel-indexed recursion; the wrapper
passes a fuel that exceeds the loop's decreasing measure, so the fuel
never runs out on the modelled runs. -/

structure MBState (T U : Type) where
  /-- Elements the upstream iterator has not yielded yet. -/
  input : List T
  /-- `iteratorDone`. -/
  iteratorDone : Bool
  /-- `partialBatch`. -/
  accBatch : List T
  /-- The single in-flight entry of `pendingBatches` (its input batch;
  the result is `fn` of it, awaited when the batch wins the race). -/
  pendingBatch : Option (List T)
  /-- Batches passed to `fn` by `createBatchTask`, in dispatch order. -/
  batches : List (List T)
  /-- Items yielded so far. -/
  output : List U
deriving Repr

inductive MBErr where
  /-- The `throw new Error('No promises to race, logic error')`. -/
  | logicError
  /-- Modelling artifact: the fuel ran out (never happens with the
  wrapper's fuel). -/
  | outOfFuel
deriving Repr, DecidableEq

/-- One pass of the `while (hasMoreInput() || hasPendingBatches() ||
hasPartialBatch())` loop, recursing on fuel. -/
def mbLoop (fn : List T → List U) (batchSize concurrency : Int) :
    Nat → MBState T U → Except MBErr (List (List T) × List U)
  | 0, _ => .error .outOfFuel
  | fuel + 1, st =>
    if ¬st.iteratorDone ∨ st.pendingBatch.isSome ∨ ¬st.accBatch.isEmpty then
      match st.pendingBatch with
      | some b =>
        -- the in-flight batch is in the race; when concurrency ≤ 1 it
        -- is the only candidate, and its completion yields its results
        mbLoop fn batchSize concurrency fuel
          { st with output := st.output ++ fn b, pendingBatch := none }
      | none =>
        -- `pendingBatches.size = 0 < concurrency` is the only way to
        -- put a promise (the input fetch) into the race
        if ¬(¬st.iteratorDone ∧ (0 : Int) < concurrency) then .error .logicError
        else
          match st.input with
          | [] =>
            -- the iterator reports done: flush any partial batch
            if st.accBatch.isEmpty then
              mbLoop fn batchSize concurrency fuel { st with iteratorDone := true }
            else
              mbLoop fn batchSize concurrency fuel
                { st with
                  iteratorDone := true
                  accBatch := []
                  pendingBatch := some st.accBatch
                  batches := st.batches ++ [st.accBatch] }
          | x :: rest =>
            -- an upstream item arrives: push, flush when batch is full
            if ((st.accBatch ++ [x]).length : Int) ≥ batchSize then
              mbLoop fn batchSize concurrency fuel
                { st with
                  input := rest
                  accBatch := []
                  pendingBatch := some (st.accBatch ++ [x])
                  batches := st.batches ++ [st.accBatch ++ [x]] }
            else
              mbLoop fn batchSize concurrency fuel
                { st with input := rest, accBatch := st.accBatch ++ [x] }
    else .ok (st.batches, st.output)

/-- Strictly decreasing measure of the loop state; the wrapper's fuel. -/
def mbMeasure (st : MBState T U) : Nat :=
  3 * st.input.length + (if st.iteratorDone then 0 else 3) +
    (if st.accBatch.isEmpty then 0 else 2) +
    (if st.pendingBatch.isSome then 1 else 0)

/-- Run `mapBatchIterable` over a finite input list. -/
def mapBatchRun (fn : List T → List U) (batchSize concurrency : Int)
    (input : List T) : Except MBErr (List (List T) × List U) :=
  mbLoop fn batchSize concurrency
    (mbMeasure (T := T) (U := U)
      { input := input, iteratorDone := false, accBatch := [],
        pendingBatch := none, batches := [], output := [] } + 1)
    { input := input, iteratorDone := false, accBatch := [],
      pendingBatch := none, batches := [], output := [] }

/-- The only use of `batchSize` in the driver loop is the
`partialBatch.length >= batchSize` test, which is evaluated just after
a push (length ≥ 1), so every `batchSize ≤ 0` behaves as `1`. -/
theorem mbLoop_bs_nonpos {T U : Type} (fn : List T → List U) {bs c : Int}
    (hbs : bs ≤ 0) :
    ∀ (fuel : Nat) (st : MBState T U),
      mbLoop fn bs c fuel st = mbLoop fn 1 c fuel st
  | 0, _ => rfl
  | fuel + 1, st => by
    unfold mbLoop
    split
    · cases hp : st.pendingBatch with
      | some b =>
        dsimp only
        exact mbLoop_bs_nonpos fn hbs fuel _
      | none =>
        dsimp only
        split
        · rfl
        · cases hin : st.input with
          | nil =>
            dsimp only
            split
            · exact mbLoop_bs_nonpos fn hbs fuel _
            · exact mbLoop_bs_nonpos fn hbs fuel _
          | cons x rest =>
            dsimp only
            rw [if_pos (show ((st.accBatch ++ [x]).length : Int) ≥ bs by
                have hl : (st.accBatch ++ [x]).length = st.accBatch.length + 1 := by simp
                rw [hl]
                push_cast
                omega),
              if_pos (show ((st.accBatch ++ [x]).length : Int) ≥ 1 by
                have hl : (st.accBatch ++ [x]).length = st.accBatch.length + 1 := by simp
                rw [hl]
                push_cast
                omega)]
            exact mbLoop_bs_nonpos fn hbs fuel _
    · rfl

/-- With `batchSize = 1` every dispatched batch is a singleton. -/
theorem mbLoop_batches_one {T U : Type} (fn : List T → List U) (c : Int) :
    ∀ (fuel : Nat) (st : MBState T U), st.accBatch = [] →
      (∀ b ∈ st.batches, b.length = 1) →
      ∀ bl out, mbLoop fn 1 c fuel st = Except.ok (bl, out) →
        ∀ b ∈ bl, b.length = 1
  | 0, st, _, _, bl, out, h => by simp [mbLoop] at h
  | fuel + 1, st, hacc, hbat, bl, out, h => by
    unfold mbLoop at h
    split at h
    · cases hp : st.pendingBatch with
      | some b =>
        rw [hp] at h
        dsimp only at h
        exact mbLoop_batches_one fn c fuel _ (by exact hacc) (by exact hbat) bl out h
      | none =>
        rw [hp] at h
        dsimp only at h
        split at h
        · simp at h
        · cases hin : st.input with
          | nil =>
            rw [hin] at h
            dsimp only at h
            rw [if_pos (show st.accBatch.isEmpty = true by rw [hacc]; rfl)] at h
            exact mbLoop_batches_one fn c fuel _ (by exact hacc) (by exact hbat) bl out h
          | cons x rest =>
            rw [hin] at h
            dsimp only at h
            rw [if_pos (show ((st.accBatch ++ [x]).length : Int) ≥ 1 by
              rw [hacc]
              simp)] at h
            refine mbLoop_batches_one fn c fuel _ (by rfl) ?_ bl out h
            intro b hb
            rcases List.mem_append.mp hb with hb | hb
            · exact hbat b hb
            · simp at hb
              rw [hb, hacc]
              rfl
    · injection h with h
      injection h with h1 h2
      intro b hb
      rw [← h1] at hb
      exact hbat b hb

/-- C7: for input [1,2,3,4,5,6] through `mapBatch` with `batchSize = 2`
and `concurrency = 1`, the batch function is invoked exactly with the
batches [1,2], [3,4], [5,6] in that order (for any batch function),
and with the identity batch function the flattened output is
[1,2,3,4,5,6]. -/
theorem C7_mapBatch_batching :
    (∀ fn : List Nat → List Nat,
      mapBatchRun fn 2 1 [1, 2, 3, 4, 5, 6] =
        Except.ok ([[1, 2], [3, 4], [5, 6]], (fn [1, 2] ++ fn [3, 4]) ++ fn [5, 6])) ∧
    mapBatchRun (fun b => b) 2 1 [1, 2, 3, 4, 5, 6] =
      Except.ok ([[1, 2], [3, 4], [5, 6]], [1, 2, 3, 4, 5, 6]) :=
  ⟨fun _ => rfl, by decide⟩

/-- C9: a pipeline configured with `batchSize ≤ 0` behaves exactly as
one configured with `batchSize = 1`: for every input and batch
function it produces the identical run (same dispatched batches in the
same order, same output), and those batches are all singletons. -/
theorem C9_batchSize_nonpos_as_one :
    ∀ {T U : Type} (fn : List T → List U) (bs c : Int) (input : List T), bs ≤ 0 →
      mapBatchRun fn bs c input = mapBatchRun fn 1 c input ∧
      (∀ bl out, mapBatchRun fn bs c input = Except.ok (bl, out) →
        ∀ b ∈ bl, b.length = 1) := by
  intro T U fn bs c input hbs
  constructor
  · unfold mapBatchRun
    exact mbLoop_bs_nonpos fn hbs _ _
  · intro bl out h
    rw [mapBatchRun, mbLoop_bs_nonpos fn hbs] at h
    exact mbLoop_batches_one fn c _ _ rfl (by intro b hb; simp at hb) bl out h

/-- Witness for C9 at a concrete negative batch size. -/
theorem C9_batchSize_nonpos_as_one_witness :
    mapBatchRun (fun b => b) (-3) 1 [1, 2] = mapBatchRun (fun b => b) 1 1 [1, 2] :=
  (C9_batchSize_nonpos_as_one (fun b => b) (-3) 1 [1, 2] (by decide)).1

/-- C10: with `concurrency ≤ 0` the driver loop's first iteration has
no promise to race (`pendingBatches.size < concurrency` is false even
at size 0), so it throws the internal logic error for every input
sequence, even an empty one, before processing any item. -/
theorem C10_concurrency_nonpos_logic_error :
    ∀ {T U : Type} (fn : List T → List U) (bs c : Int) (input : List T), c ≤ 0 →
      mapBatchRun fn bs c input = Except.error MBErr.logicError := by
  intro T U fn bs c input hc
  unfold mapBatchRun
  unfold mbLoop
  rw [if_pos (by left; simp)]
  dsimp only
  rw [if_pos (by
    rintro ⟨-, h2⟩
    omega)]

/-- Witness for C10 at concrete inputs (non-empty and empty). -/
theorem C10_concurrency_nonpos_logic_error_witness :
    mapBatchRun (fun b => b) 1 0 [1, 2] = Except.error MBErr.logicError ∧
    mapBatchRun (fun b => b) 1 0 ([] : List Nat) = Except.error MBErr.logicError :=
  ⟨C10_concurrency_nonpos_logic_error (fun b => b) 1 0 [1, 2] (by decide),
    C10_concurrency_nonpos_logic_error (fun b => b) 1 0 [] (by decide)⟩

end Crnt
